import Mathlib

/-!
Verification development for the PaSGAL sequence-to-DAG local aligner core
(`src/include/align.hpp`, `src/include/align_vectorized.hpp`,
`src/include/graphLoad.hpp`).

The scalar dynamic program, the Phase 2-4 traceback pipeline, the vectorized
forward/reverse Phase 1 kernels, the long-hop classifiers and the plain-text
graph loader are embedded as executable Lean functions over lists.  Machine
integers are modelled as `Int`/`Nat`; the few places where C++ unsigned
wrap-around is observable (`size_t` subtraction, truncation to a 32-bit SIMD
lane) carry an explicit `% 2^w`.

Components of the repository that the core uses but whose sources are not part
of the three files above (`base_types.hpp`, `csr.hpp`, `graph_iter.hpp`,
`utils.hpp`) are modelled from the specification; each such definition says so
in its doc comment.
-/

namespace PaSGAL

/-- Modelled from the spec: the scoring constants `SCORE::match`,
`SCORE::mismatch`, `SCORE::ins`, `SCORE::del` live in `base_types.hpp`, which
is not among the sources.  Per the spec they are "Match reward,
mismatch/insert/delete penalties — all non-negative integers, used as linear
costs", so they are modelled as natural numbers; the DP code negates/subtracts
the penalties itself. -/
structure Scores where
  matchS : Nat
  mismatchS : Nat
  insS : Nat
  delS : Nat
deriving Repr, DecidableEq

/-- The reference graph with single-character vertex labels, as used by the DP
engine (`CSR_char_container`: fields `vertex_label`, `adjcny_in`/`offsets_in`,
`adjcny_out`/`offsets_out`).  The CSR offset/adjacency pair is represented as
one list of neighbor lists per vertex: `adjcny_in.get v` is the slice
`adjcny_in[offsets_in[v] .. offsets_in[v+1])` of the C++ container. -/
structure Graph where
  vertex_label : List Char
  adjcny_in : List (List Nat)
  adjcny_out : List (List Nat)
deriving Repr, DecidableEq

def Graph.numVertices (g : Graph) : Nat := g.vertex_label.length

def Graph.label (g : Graph) (v : Nat) : Char := g.vertex_label.getD v '?'

def Graph.inNbr (g : Graph) (v : Nat) : List Nat := g.adjcny_in.getD v []

def Graph.outNbr (g : Graph) (v : Nat) : List Nat := g.adjcny_out.getD v []

/-- The graph invariant established at load time (`sort()` / `verify()`): the
vertex numbering is a topological order, so every in-neighbor of a vertex has
a strictly smaller id.  Stated over the stored adjacency table so that it is
decidable on concrete graphs. -/
def Graph.topIn (g : Graph) : Prop :=
  ∀ v, v < g.adjcny_in.length → ∀ p ∈ g.adjcny_in.getD v [], p < v

instance (g : Graph) : Decidable g.topIn := by
  unfold Graph.topIn; infer_instance

theorem Graph.topIn_nbr {g : Graph} (h : g.topIn) :
    ∀ v, ∀ p ∈ g.inNbr v, p < v := by
  intro v p hp
  by_cases hv : v < g.adjcny_in.length
  · exact h v hv p hp
  · rw [Graph.inNbr, List.getD_eq_default] at hp
    · exact absurd hp (List.not_mem_nil p)
    · omega

/-- `curChar == read[i] ? SCORE::match : -1 * SCORE::mismatch`
(align.hpp line 361 and, for the slab pass, line 150). -/
def matchScore (sc : Scores) (readChar curChar : Char) : Int :=
  if curChar = readChar then (sc.matchS : Int) else -(sc.mismatchS : Int)

/-- One "column axis" of the scalar DP: the reference character of each column
together with the preceding dependency offsets that `graphIterFwd`'s
`getNeighborOffsets` reports for it.  The full Phase 1 pass and the Phase 3
slab pass are the same loop body run over two such axes (modelled from the
spec where `graph_iter.hpp` is concerned: for single-character vertices the
iterator's global offset is the vertex id and its neighbor offsets are the
in-neighbor ids). -/
structure ColRef where
  chars : List Char
  deps : List (List Nat)
deriving Repr, DecidableEq

def ColRef.width (P : ColRef) : Nat := P.chars.length

def ColRef.charAt (P : ColRef) (j : Nat) : Char := P.chars.getD j '?'

def ColRef.depsAt (P : ColRef) (j : Nat) : List Nat := P.deps.getD j []

/-- All dependency offsets of a column precede it (the topological-order
invariant seen through the iterator). -/
def ColRef.depsLt (P : ColRef) : Prop :=
  ∀ j, ∀ k ∈ P.depsAt j, k < j

/-- The body of the scalar DP inner loop (align.hpp lines 346-377; the Phase 3
variant is lines 137-175 with the dependency filter folded into `deps`):

* `fromInsertion = matrix[(i-1)%2][j] - SCORE::ins`,
* `fromMatch` starts at `matchScore` and folds `matrix[(i-1)%2][k] + matchScore`,
* `fromDeletion` starts at `-1` and folds `matrix[i%2][k] - SCORE::del`,
* the cell is `max(max(fromInsertion, fromMatch), max(fromDeletion, 0))`.

`prevRow` is DP row `i-1` (the zero-initialized buffer when `i = 0`);
`curRow` is the prefix of row `i` already written, which by topological order
contains every dependency offset the loop body reads. -/
def dpCellVal (sc : Scores) (P : ColRef) (c : Char) (prevRow curRow : List Int)
    (j : Nat) : Int :=
  let curChar := P.charAt j
  let fromInsertion : Int := prevRow.getD j 0 - (sc.insS : Int)
  let ms := matchScore sc c curChar
  let fromMatch := (P.depsAt j).foldl (fun acc k => max acc (prevRow.getD k 0 + ms)) ms
  let fromDeletion := (P.depsAt j).foldl (fun acc k => max acc (curRow.getD k 0 - (sc.delS : Int))) (-1)
  max (max fromInsertion fromMatch) (max fromDeletion 0)

/-- The first `n` cells of one DP row, built left to right exactly as the
inner loop writes `matrix[i % 2]`. -/
def dpRowN (sc : Scores) (P : ColRef) (c : Char) (prevRow : List Int) : Nat → List Int
  | 0 => []
  | n + 1 =>
    let cur := dpRowN sc P c prevRow n
    cur ++ [dpCellVal sc P c prevRow cur n]

/-- One full DP row (the state of `matrix[i % 2]` after the inner loop). -/
def dpRow (sc : Scores) (P : ColRef) (c : Char) (prevRow : List Int) : List Int :=
  dpRowN sc P c prevRow P.width

/-- All DP rows, one per read character; row `i` is computed from row `i-1`,
the first row from the zero-initialized buffer.  (The C++ code ping-pongs two
physical rows; since row `i` reads only row `i-1` and the prefix of row `i`,
keeping every row is observationally the same.) -/
def dpRows (sc : Scores) (P : ColRef) : List Char → List Int → List (List Int)
  | [], _ => []
  | c :: cs, prevRow =>
    let r := dpRow sc P c prevRow
    r :: dpRows sc P cs r

/-- The whole DP matrix for a read (`matrix` of align.hpp, all rows kept). -/
def dpMatrix (sc : Scores) (P : ColRef) (read : List Char) : List (List Int) :=
  dpRows sc P read (List.replicate P.width 0)

/-- Cell `(r, j)` of a DP matrix; out-of-range reads default to `0`, matching
the zero-initialized buffers. -/
def cellAt (m : List (List Int)) (r j : Nat) : Int := (m.getD r []).getD j 0

/-- The column axis the full Phase 1 pass iterates over: all vertices in
topological order, each with its in-neighbor offsets. -/
def Graph.colRef (g : Graph) : ColRef := ⟨g.vertex_label, g.adjcny_in⟩

/-- The Phase 1 scalar DP matrix of `alignToDAGLocal_Phase1_Score`. -/
def phase1Matrix (sc : Scores) (g : Graph) (read : List Char) : List (List Int) :=
  dpMatrix sc g.colRef read

/-- The DP value of cell `(r, v)` as the specification's recurrence writes it:
the maximum of `0`, `sub`, `cell(r-1, p) + sub` and `cell(r, p) - del` over the
in-neighbors `p` of `v`, and `cell(r-1, v) - ins`, where every reference to
row `r-1` is `0` when `r = 0`. -/
def phase1CellSpec (sc : Scores) (g : Graph) (read : List Char) (r v : Nat) : Int :=
  let m := phase1Matrix sc g read
  let prevAt : Nat → Int := fun p => if r = 0 then 0 else cellAt m (r - 1) p
  let sub := matchScore sc (read.getD r '?') (g.label v)
  List.foldr max 0
    ([sub] ++ ((g.inNbr v).map fun p => prevAt p + sub)
      ++ ((g.inNbr v).map fun p => cellAt m r p - (sc.delS : Int))
      ++ [prevAt v - (sc.insS : Int)])

/-- Modelled from the spec where `base_types.hpp` is concerned: the per-read
result record (`BestScoreInfo`).  The spec fixes `score = 0` before Phase 1;
the location fields are modelled as starting at `0`.  For single-character
vertices the iterator's vertex id coincides with the global column offset, so
`vid = refColumn` throughout and `vertexSeqOffset` (always `0`) is omitted. -/
structure BestScoreInfo where
  score : Int
  vid : Nat
  refColumn : Nat
  qryRow : Nat
deriving Repr, DecidableEq

/-- The cell visit order of the scalar Phase 1 loop nest: rows outer
(read characters), columns inner (vertices in topological order). -/
def phase1ScanF (height width : Nat) : List (Nat × Nat) :=
  (List.range height).flatMap (fun i => (List.range width).map (fun j => (i, j)))

/-- The best-score update of align.hpp lines 380-387: strictly improving
cells overwrite the whole record. -/
def bestUpd (cells : Nat → Nat → Int) (b : BestScoreInfo) (ij : Nat × Nat) :
    BestScoreInfo :=
  if b.score < cells ij.1 ij.2 then ⟨cells ij.1 ij.2, ij.2, ij.2, ij.1⟩ else b

/-- The scalar Phase 1 kernel `alignToDAGLocal_Phase1_Score`: compute the DP
matrix and track the best score and its location over the row-major scan. -/
def alignToDAGLocal_Phase1_Score (sc : Scores) (g : Graph) (read : List Char) :
    BestScoreInfo :=
  (phase1ScanF read.length g.numVertices).foldl
    (bestUpd (cellAt (phase1Matrix sc g read))) ⟨0, 0, 0, 0⟩

/-- The state of the scalar Phase 1 best-score record after the first `n`
cells of the scan. -/
def runningBest (sc : Scores) (g : Graph) (read : List Char) (n : Nat) :
    BestScoreInfo :=
  ((phase1ScanF read.length g.numVertices).take n).foldl
    (bestUpd (cellAt (phase1Matrix sc g read))) ⟨0, 0, 0, 0⟩

/-- The spec's scenario scoring: match = mismatch = ins = del = 1. -/
def scoreUnit : Scores := ⟨1, 1, 1, 1⟩

/-- Concrete two-vertex chain A→C used as a test input. -/
def gChain2 : Graph := ⟨['A', 'C'], [[], [0]], [[1], []]⟩

/-- `stoi` applied to a neighbor token (graphLoad.hpp line 147).  The tokens
of a well-formed graph file are decimal numerals; `stoi` accumulates their
digits. -/
def stoi (s : String) : Nat :=
  s.data.foldl (fun n c => n * 10 + (c.toNat - Char.toNat (Char.ofNat 48))) 0

/-- The data `graphLoader::loadFromTxt` accumulates: the vertex count read
from the header, the per-vertex label strings passed to `initVertexSequence`,
and the edge vector passed to `initEdges`. -/
structure TxtGraphData where
  totalVertices : Nat
  labels : List String
  edgeVector : List (Nat × Nat)
deriving Repr, DecidableEq

/-- `graphLoader::loadFromTxt` (graphLoad.hpp lines 109-161), with each input
line already split into its whitespace-separated tokens (the
`istream_iterator<string>` step).  The loop counts rows in `currentRow`;
row 0 parses the vertex count, row `currentRow ≥ 1` stores `tokens.back()`
as the label of vertex `currentRow - 1` and emits
`edgeVector.emplace_back(currentRow - 1, stoi(*it))` for every token except
the last. -/
def loadFromTxt (lines : List (List String)) : TxtGraphData :=
  (lines.foldl
    (fun (st : Nat × TxtGraphData) (tokens : List String) =>
      let currentRow := st.1
      let d := st.2
      if currentRow = 0 then
        (1, { d with totalVertices := stoi (tokens.headD "") })
      else
        (currentRow + 1,
          { d with
              labels := d.labels ++ [(tokens.getLast?).getD ""],
              edgeVector := d.edgeVector ++
                tokens.dropLast.map (fun t => (currentRow - 1, stoi t)) }))
    (0, ⟨0, [], []⟩)).2

/-- `Phase1_Vectorized::blockWidth` (align_vectorized.hpp line 135). -/
def blockWidth : Nat := 8

/-- `Phase1_Vectorized::blockHeight` (align_vectorized.hpp line 139). -/
def blockHeight : Nat := 16

/-- `Phase1_Rev_Vectorized::computeLongHops` (align_vectorized.hpp lines
817-840): for every vertex `i` and every in-edge `from_pos → i`
(`from_pos = adjcny_in[j]`, `to_pos = i`) with `to_pos - from_pos ≥
blockWidth`, set `withLongHop[to_pos] = true`.  (The `int32_t` difference of
a non-long pair `from_pos > to_pos` is negative, which compares below
`blockWidth` just as the truncated natural subtraction does.) -/
def computeLongHopsRev (g : Graph) : List Bool :=
  (List.range g.numVertices).foldl
    (fun acc i =>
      (g.inNbr i).foldl
        (fun acc2 p => if blockWidth ≤ i - p then acc2.set i true else acc2) acc)
    (List.replicate g.numVertices false)

/-- `Phase1_Vectorized::computeLongHops` (align_vectorized.hpp lines 305-328):
identical loop, but the mark goes to `from_pos`. -/
def computeLongHops (g : Graph) : List Bool :=
  (List.range g.numVertices).foldl
    (fun acc i =>
      (g.inNbr i).foldl
        (fun acc2 p => if blockWidth ≤ i - p then acc2.set p true else acc2) acc)
    (List.replicate g.numVertices false)

/-- Concrete 9-vertex graph whose only edge 0→8 spans exactly `blockWidth`. -/
def gLong : Graph :=
  ⟨List.replicate 9 'A',
   [[], [], [], [], [], [], [], [], [0]],
   [[8], [], [], [], [], [], [], [], []]⟩

/-- The padding sentinel (`#define DUMMY 'B'`). -/
def DUMMY : Char := 'B'

/-- One SIMD lane of the substitution score (align_vectorized.hpp lines
473-474): `cmpeq` then `blend(compareChar, mismatch512, match512)` — equal
lanes take `SCORE::match`, unequal lanes take `SCORE::mismatch` *unnegated*
(`mismatch512 = set1(SCORE::mismatch)`, line 367). -/
def vecSub (sc : Scores) (readChar graphChar : Char) : Int :=
  if readChar = graphChar then (sc.matchS : Int) else (sc.mismatchS : Int)

/-- One SIMD lane of the vectorized cell computation (lines 461-532 forward,
1014-1088 reverse): `currentMax = max(0, sub)`, then per dependency the
substitution edit `buffer[p][l-1] + sub` and the deletion edit
`buffer[p][l] + del512` (an `add`, `del512 = set1(SCORE::del)`), finally the
insertion edit `buffer[k][l-1] + ins512`.  Under the topological order the
`nearby`/`farther`/`lastBatchRow` buffer reads resolve to the row `r-1` /
row `r` cells of the dependency columns, so the per-lane computation is this
column recurrence over the padded character stream. -/
def vecCell (sc : Scores) (P : ColRef) (rc : Char) (prevRow curRow : List Int)
    (j : Nat) : Int :=
  let sub := vecSub sc rc (P.charAt j)
  let afterNbrs := (P.depsAt j).foldl
    (fun acc p => max (max acc (prevRow.getD p 0 + sub)) (curRow.getD p 0 + (sc.delS : Int)))
    (max 0 sub)
  max afterNbrs (prevRow.getD j 0 + (sc.insS : Int))

/-- The first `n` cells of one vectorized DP row of a lane. -/
def vecRowN (sc : Scores) (P : ColRef) (c : Char) (prevRow : List Int) : Nat → List Int
  | 0 => []
  | n + 1 =>
    let cur := vecRowN sc P c prevRow n
    cur ++ [vecCell sc P c prevRow cur n]

/-- All vectorized DP rows of a lane, one per (padded) read character. -/
def vecRows (sc : Scores) (P : ColRef) : List Char → List Int → List (List Int)
  | [], _ => []
  | c :: cs, prevRow =>
    let r := vecRowN sc P c prevRow P.width
    r :: vecRows sc P cs r

/-- The forward vectorized per-lane DP matrix over the padded characters. -/
def vecMatrixF (sc : Scores) (g : Graph) (chars : List Char) : List (List Int) :=
  vecRows sc g.colRef chars (List.replicate g.numVertices 0)

/-- The padded batch length (line 440):
`qryBatchLength += blockHeight - 1 - (qryBatchLength - 1) % blockHeight`;
the `size_t` wrap of `0 - 1` makes the result `0` for an empty read. -/
def padLen : Nat → Nat
  | 0 => 0
  | n + 1 => (n + 1) + (blockHeight - 1 - n % blockHeight)

/-- Lane `k`'s character stream of the SoA buffer (`convertToSOA`, lines
282-295): row `j` holds `readSet[sorted[i+k]][j]` when the lane exists and
`j` is within its read, else the `DUMMY` sentinel. -/
def soaLaneChars (reads : List (List Char)) (k len : Nat) : List Char :=
  (List.range len).map (fun j =>
    if j < (reads.getD k []).length then (reads.getD k []).getD j DUMMY else DUMMY)

/-- The cell visit order of the vectorized kernels (lines 443-464 forward):
row blocks of `blockHeight` outermost, then the vertex sweep, then the
`blockHeight` rows inside the block; the visited row is `j + l`. -/
def vecScan (numV padded : Nat) : List (Nat × Nat) :=
  (List.range (padded / blockHeight)).flatMap (fun j =>
    (List.range numV).flatMap (fun k =>
      (List.range blockHeight).map (fun l => (blockHeight * j + l, k))))

/-- One lane of the vectorized best-score registers
(`bestScores512`/`bestRows512`/`bestCols512`). -/
structure VecBest where
  score : Int
  row : Nat
  col : Nat
deriving Repr, DecidableEq

/-- One lane of the best-score update (lines 534-559): the running maximum is
updated first, then `cmpeq(currentMax, bestScores)` selects the lanes whose
cell equals the *updated* maximum and `mask_set1` overwrites their endpoint
with the current `(j + l, k)`. -/
def vecBestUpd (cells : Nat → Nat → Int) (b : VecBest) (rc : Nat × Nat) : VecBest :=
  let cur := cells rc.1 rc.2
  let newScore := max cur b.score
  if cur = newScore then ⟨newScore, rc.1, rc.2⟩ else ⟨newScore, b.row, b.col⟩

/-- One lane of `alignToDAGLocal_Phase1_vectorized`: the block scan over the
lane's padded characters with the tie-overwriting best tracker. -/
def vecLaneBestF (sc : Scores) (g : Graph) (chars : List Char) : VecBest :=
  (vecScan g.numVertices chars.length).foldl
    (vecBestUpd (cellAt (vecMatrixF sc g chars))) ⟨0, 0, 0⟩

/-- The per-lane result the forward wrapper reports for lane `k` of a batch
(`reads` in sorted order, longest first): every lane runs over the padded
length derived from lane 0 (`readSet[sortedReadOrder[i * numSeqs]]`). -/
def phase1VecLane (sc : Scores) (g : Graph) (reads : List (List Char)) (k : Nat) :
    VecBest :=
  vecLaneBestF sc g (soaLaneChars reads k (padLen (reads.headD []).length))

/-- Truncation of a natural to a signed 32-bit lane value (the `int32_t`
instantiation of the SIMD type). -/
def toInt32 (x : Nat) : Int :=
  let y : Nat := x % 2 ^ 32
  if y < 2 ^ 31 then (y : Int) else (y : Int) - 2 ^ 32

/-- `fwdBestRows[j] = readSet[rid].length() - 1 - qryRowEnd` (line 962):
computed in `size_t` arithmetic, then narrowed into the 32-bit SIMD lane. -/
def revBoostRow (len qryRowEnd : Nat) : Int :=
  toInt32 ((len + 2 ^ 64 - 1 - qryRowEnd) % 2 ^ 64)

/-- The reverse kernel sweeps vertices in descending order using the
out-adjacency (lines 1011, 1039-1087).  Equivalently it is the forward sweep
over the mirrored vertex order: position `i` stands for vertex
`numVertices - 1 - i` and its dependencies are the (mirrored) out-neighbors,
which by the topological order lie at *earlier* mirrored positions. -/
def Graph.revColRef (g : Graph) : ColRef :=
  ⟨(List.range g.numVertices).map (fun i => g.label (g.numVertices - 1 - i)),
   (List.range g.numVertices).map (fun i =>
     (g.outNbr (g.numVertices - 1 - i)).map (fun u => g.numVertices - 1 - u))⟩

/-- One *stored* row of the reverse kernel (mirrored positions).  The raw cell
is computed from the stored buffers; afterwards (lines 1116-1154, after the
best-score update) the lane whose current coordinate equals the forward
endpoint — compared against `fwdBestRows`/`fwdBestCols` in lane arithmetic —
is overwritten with `SCORE::match + 1` before the value is stored back. -/
def vecRevRowN (sc : Scores) (g : Graph) (boostRow : Int) (boostCol : Nat)
    (c : Char) (row : Nat) (prevRow : List Int) : Nat → List Int
  | 0 => []
  | n + 1 =>
    let cur := vecRevRowN sc g boostRow boostCol c row prevRow n
    let raw := vecCell sc g.revColRef c prevRow cur n
    let origV := g.numVertices - 1 - n
    cur ++ [if boostRow = (row : Int) ∧ boostCol = origV then (sc.matchS : Int) + 1 else raw]

/-- All stored rows of the reverse kernel, threading the absolute row index
for the boost comparison. -/
def vecRevRows (sc : Scores) (g : Graph) (boostRow : Int) (boostCol : Nat) :
    List Char → Nat → List Int → List (List Int)
  | [], _, _ => []
  | c :: cs, r, prevRow =>
    let row := vecRevRowN sc g boostRow boostCol c r prevRow g.numVertices
    row :: vecRevRows sc g boostRow boostCol cs (r + 1) row

/-- The stored reverse DP matrix of a lane. -/
def vecRevMatrix (sc : Scores) (g : Graph) (boostRow : Int) (boostCol : Nat)
    (chars : List Char) : List (List Int) :=
  vecRevRows sc g boostRow boostCol chars 0 (List.replicate g.numVertices 0)

/-- The raw (pre-boost) reverse cell at row `r`, mirrored position `i`: the
value the best-score tracker reads (the update happens before the boost). -/
def vecRevRaw (sc : Scores) (g : Graph) (boostRow : Int) (boostCol : Nat)
    (chars : List Char) (r i : Nat) : Int :=
  let m := vecRevMatrix sc g boostRow boostCol chars
  let prev := if r = 0 then List.replicate g.numVertices 0 else m.getD (r - 1) []
  vecCell sc g.revColRef (chars.getD r '?') prev
    (vecRevRowN sc g boostRow boostCol (chars.getD r '?') r prev i) i

/-- One lane of `alignToDAGLocal_Phase1_rev_vectorized`: the block scan with
the tie-overwriting tracker over the raw cell values; the stored column is
the original vertex id `k` of the mirrored position. -/
def vecRevBest (sc : Scores) (g : Graph) (boostRow : Int) (boostCol : Nat)
    (chars : List Char) : VecBest :=
  (vecScan g.numVertices chars.length).foldl
    (fun b rc =>
      let cur := vecRevRaw sc g boostRow boostCol chars rc.1 rc.2
      let newScore := max cur b.score
      if cur = newScore then ⟨newScore, rc.1, g.numVertices - 1 - rc.2⟩
      else ⟨newScore, b.row, b.col⟩)
    ⟨0, 0, 0⟩

/-- Concrete one-vertex graph labelled 'A'. -/
def gA1 : Graph := ⟨['A'], [[]], [[]]⟩

/-- The DP value of cell `(r, c)` of the generic column DP as the recurrence
writes it (the generic form of `phase1CellSpec`). -/
def dpCellSpec (sc : Scores) (P : ColRef) (read : List Char) (r c : Nat) : Int :=
  let m := dpMatrix sc P read
  let prevAt : Nat → Int := fun p => if r = 0 then 0 else cellAt m (r - 1) p
  let sub := matchScore sc (read.getD r '?') (P.charAt c)
  List.foldr max 0
    ([sub] ++ ((P.depsAt c).map fun p => prevAt p + sub)
      ++ ((P.depsAt c).map fun p => cellAt m r p - (sc.delS : Int))
      ++ [prevAt c - (sc.insS : Int)])

/-- Modelled from the spec: `CSR_container::computeLeftMostReachableVertex`
lives in `csr.hpp`, which is not among the sources.  Per the spec it returns
"the smallest u reachable backward from v along any path of at most maxHops
characters", computed by a reverse BFS over in-edges.  `reachList g d v`
enumerates (with repetitions) the vertices reachable from `v` through at most
`d` in-edges. -/
def reachList (g : Graph) : Nat → Nat → List Nat
  | 0, v => [v]
  | d + 1, v => v :: (g.inNbr v).flatMap (fun p => reachList g d p)

/-- Modelled from the spec: the smallest backward-reachable vertex within the
hop budget. -/
def computeLeftMostReachableVertex (g : Graph) (v : Nat) (maxHops : Nat) : Nat :=
  (reachList g maxHops v).foldl min v

/-- Phase 2's distance budget (align.hpp line 91):
`read.length() + ceil(read.length() * 1.0 * match / del)`, the floating-point
ceiling modelled as the exact ceiling division (exact in the ranges in
scope). -/
def maxDistance (sc : Scores) (len : Nat) : Nat :=
  len + (len * sc.matchS + sc.delS - 1) / sc.delS

/-- The column axis of the Phase 3 slab recomputation (align.hpp lines
130-175): columns `j0 .. j0 + w - 1` of the reference, each paired with its
preceding dependency offsets filtered by `k ≥ j0` and shifted to slab
coordinates `k - j0`. -/
def slabColRef (g : Graph) (j0 w : Nat) : ColRef :=
  ⟨(List.range w).map (fun j => g.label (j0 + j)),
   (List.range w).map (fun j =>
     ((g.inNbr (j0 + j)).filter (fun k => decide (j0 ≤ k))).map (fun k => k - j0))⟩

/-- Phase 2 (align.hpp lines 86-100): the leftmost vertex reachable backward
from the best endpoint within the distance budget. -/
def phase2Leftmost (sc : Scores) (g : Graph) (read : List Char)
    (best : BestScoreInfo) : Nat :=
  computeLeftMostReachableVertex g best.vid (maxDistance sc read.length)

/-- The Phase 3 slab DP matrix (align.hpp lines 123-180): width
`totalRefLength(leftMostReachable, best.vid) = best.refColumn - j0 + 1`
(single-character vertices), height `best.qryRow + 1` rows of the read. -/
def phase3Matrix (sc : Scores) (g : Graph) (read : List Char)
    (best : BestScoreInfo) : List (List Int) :=
  let j0 := phase2Leftmost sc g read best
  dpMatrix sc (slabColRef g j0 (best.refColumn + 1 - j0)) (read.take (best.qryRow + 1))

/-- `finalRow` of Phase 3: the last computed slab row (align.hpp lines
177-179). -/
def phase3FinalRow (sc : Scores) (g : Graph) (read : List Char)
    (best : BestScoreInfo) : List Int :=
  (phase3Matrix sc g read best).getD best.qryRow []

/-- The score of an alignment with `M` matches, `X` mismatches, `D` deletions
and `I` insertions under the linear costs. -/
def achScore (sc : Scores) (M X D I : Nat) : Int :=
  (M : Int) * sc.matchS - (X : Int) * sc.mismatchS -
    (D : Int) * sc.delS - (I : Int) * sc.insS

/-- Local-alignment derivations of the column DP: `AchCol sc P read c0 r c M
X D I` holds when some local alignment starts in column `c0`, ends at cell
`(r, c)`, and uses `M` matches, `X` mismatches, `D` deletions and `I`
insertions.  The four clauses mirror the recurrence branches: a local
alignment may start with the substitution at its first cell, extend by a
substitution or deletion along a dependency edge, or extend by an
insertion. -/
inductive AchCol (sc : Scores) (P : ColRef) (read : List Char) :
    Nat → Nat → Nat → Nat → Nat → Nat → Nat → Prop
  | start (r c : Nat) :
      AchCol sc P read c r c
        (if P.charAt c = read.getD r '?' then 1 else 0)
        (if P.charAt c = read.getD r '?' then 0 else 1) 0 0
  | subst {c0 r p M X D I} (c : Nat) (hp : p ∈ P.depsAt c) :
      AchCol sc P read c0 r p M X D I →
      AchCol sc P read c0 (r + 1) c
        (M + (if P.charAt c = read.getD (r + 1) '?' then 1 else 0))
        (X + (if P.charAt c = read.getD (r + 1) '?' then 0 else 1)) D I
  | del {c0 r p M X D I} (c : Nat) (hp : p ∈ P.depsAt c) :
      AchCol sc P read c0 r p M X D I →
      AchCol sc P read c0 r c M X (D + 1) I
  | ins {c0 r c M X D I} :
      AchCol sc P read c0 r c M X D I →
      AchCol sc P read c0 (r + 1) c M X D (I + 1)

/-- The score row the Phase 4 walk reads at a signed row index: row `-1` is
the zero row (`completeMatrixLog[0][j] = matrix[0][j] - 0`, so
`aboveRowScores` reconstructed at row `0` is all zeros), row `r ≥ 0` is DP
row `r`.  `currentRowScores`/`aboveRowScores` of align.hpp lines 207-220 are
`cellFn row`/`cellFn (row - 1)`: the stored vertical differences
`completeMatrixLog[i][j] = matrix(i,j) - matrix(i-1,j)` reconstruct exactly
the previous DP row. -/
def cellFn (sc : Scores) (P : ColRef) (read : List Char) (row : Int) (j : Nat) : Int :=
  if 0 ≤ row then cellAt (dpMatrix sc P read) row.toNat j else 0

/-- The strict-improvement argmax fold shared by the `fromMatch`/`fromMatchPos`
and `fromDeletion`/`fromDeletionPos` loops of align.hpp lines 236-256: the
tracked position moves only on strict improvement of the value. -/
def tbTrack (f : Nat → Int) (deps : List Nat) (v : Int) (p : Nat) : Int × Nat :=
  deps.foldl (fun q k => if q.1 < f k then (f k, k) else q) (v, p)

/-- `matchScore` of the Phase 4 loop body (align.hpp line 231) at walk state
`(c, row)`. -/
def tbMS (sc : Scores) (P : ColRef) (read : List Char) (c : Nat) (row : Int) : Int :=
  matchScore sc (read.getD row.toNat '?') (P.charAt c)

/-- `(fromMatch, fromMatchPos)` of align.hpp lines 233-242: seeded with the
bare substitution at the current column, folded over the preceding dependency
offsets (the `k ≥ j0` filter and `k - j0` shift are absorbed into the slab
`ColRef`, exactly as in Phase 3). -/
def tbFM (sc : Scores) (P : ColRef) (read : List Char) (c : Nat) (row : Int) : Int × Nat :=
  tbTrack (fun k => cellFn sc P read (row - 1) k + tbMS sc P read c row)
    (P.depsAt c) (tbMS sc P read c row) c

/-- `(fromDeletion, fromDeletionPos)` of align.hpp lines 245-255: seeded with
`-1`; the position is uninitialized in the C++ until the first strict
improvement (it is only ever read after one, since a matched cell is
positive), modelled here with initial position `0`. -/
def tbFD (sc : Scores) (P : ColRef) (read : List Char) (c : Nat) (row : Int) : Int × Nat :=
  tbTrack (fun k => cellFn sc P read row k - (sc.delS : Int)) (P.depsAt c) (-1) 0

/-- The cigar character the match branch pushes (align.hpp lines 260-264). -/
def opChar (sc : Scores) (ms : Int) : Char :=
  if ms = (sc.matchS : Int) then '=' else 'X'

/-- One decision of the Phase 4 traceback loop body: exit (with an optional
final cigar character), move to a new state emitting a cigar character, or
hit the insertion-branch assertion failure. -/
inductive TBNext where
  | stop (op : Option Char)
  | move (c : Nat) (row : Int) (op : Char)
  | bad
deriving Repr, DecidableEq

/-- The Phase 4 loop body (align.hpp lines 211-296) at state `(c, row)` in
slab column coordinates (`c = globalOffset - j0`; the loop condition
`col ≥ 0` is the guard `k ≥ j0` of every jump source, so only `row ≥ 0`
remains).  Branch order mirrors the source: match first (breaking after the
push when `fromMatchPos` is the current offset), then deletion, then the
asserted insertion. -/
def tbNext (sc : Scores) (P : ColRef) (read : List Char) (c : Nat) (row : Int) : TBNext :=
  if row < 0 then TBNext.stop none
  else if cellFn sc P read row c ≤ 0 then TBNext.stop none
  else if cellFn sc P read row c = (tbFM sc P read c row).1 then
    (if (tbFM sc P read c row).2 = c then
      TBNext.stop (some (opChar sc (tbMS sc P read c row)))
    else TBNext.move (tbFM sc P read c row).2 (row - 1) (opChar sc (tbMS sc P read c row)))
  else if cellFn sc P read row c = (tbFD sc P read c row).1 then
    TBNext.move (tbFD sc P read c row).2 row 'D'
  else if cellFn sc P read row c =
      cellFn sc P read (row - 1) c - (sc.insS : Int) then
    TBNext.move c (row - 1) 'I'
  else TBNext.bad

/-- Outcome of the Phase 4 walk: the emitted cigar characters in emission
(reverse) order on normal loop exit, the insertion-assert failure, or fuel
exhaustion (not a program behavior; the termination theorem rules it out). -/
inductive TBOut where
  | ok (cigarRev : List Char)
  | fail
  | fuel
deriving Repr, DecidableEq

/-- The Phase 4 traceback loop (align.hpp lines 211-296), fuel-indexed. -/
def tbWalk (sc : Scores) (P : ColRef) (read : List Char) :
    Nat → Nat → Int → List Char → TBOut
  | 0, _, _, _ => TBOut.fuel
  | fuel + 1, c, row, acc =>
    match tbNext sc P read c row with
    | TBNext.stop none => TBOut.ok acc
    | TBNext.stop (some op) => TBOut.ok (op :: acc)
    | TBNext.move c2 row2 op => tbWalk sc P read fuel c2 row2 (op :: acc)
    | TBNext.bad => TBOut.fail

/-- Modelled from the spec: `seqUtils::cigarScore` lives in the absent
`utils.hpp`; per the spec it replays a cigar, adding `match` per `=` and
subtracting `mismatch`/`del`/`ins` per `X`/`D`/`I`. -/
def opScore (sc : Scores) : Char → Int
  | '=' => (sc.matchS : Int)
  | 'X' => -(sc.mismatchS : Int)
  | 'D' => -(sc.delS : Int)
  | 'I' => -(sc.insS : Int)
  | _ => 0

/-- Score of a plain cigar character string. -/
def cigarScore (sc : Scores) (s : List Char) : Int := (s.map (opScore sc)).sum

/-- One step of cigar run-length encoding: absorb a character into the group
list built for the suffix to its right. -/
def cigarPush (ch : Char) : List (Nat × Char) → List (Nat × Char)
  | [] => [(1, ch)]
  | (n, c) :: t => if c = ch then (n + 1, c) :: t else (1, ch) :: (n, c) :: t

/-- Modelled from the spec: `seqUtils::cigarCompact` (absent `utils.hpp`)
run-length encodes the cigar string into (count, op) groups. -/
def cigarCompact (s : List Char) : List (Nat × Char) :=
  s.foldr cigarPush []

/-- Replay score of a compacted cigar: each group contributes its count times
its op score. -/
def cigarRunScore (sc : Scores) (l : List (Nat × Char)) : Int :=
  (l.map (fun p => (p.1 : Int) * opScore sc p.2)).sum

theorem dpRowN_length (sc : Scores) (P : ColRef) (c : Char) (prevRow : List Int) :
    ∀ n, (dpRowN sc P c prevRow n).length = n := by
  intro n
  induction n with
  | zero => rfl
  | succ n ih => simp [dpRowN, ih]

theorem dpRowN_getD_stable (sc : Scores) (P : ColRef) (c : Char) (prevRow : List Int)
    {k n : Nat} (hk : k < n) :
    (dpRowN sc P c prevRow n).getD k 0 = (dpRowN sc P c prevRow (k + 1)).getD k 0 := by
  induction n with
  | zero => omega
  | succ n ih =>
    rcases Nat.lt_or_ge k n with h | h
    · rw [← ih h]
      show (dpRowN sc P c prevRow n ++ _).getD k 0 = _
      rw [List.getD_append]
      rw [dpRowN_length]; exact h
    · have : k = n := by omega
      subst this; rfl

theorem dpRowN_getD_cell (sc : Scores) (P : ColRef) (c : Char) (prevRow : List Int)
    {k n : Nat} (hk : k < n) :
    (dpRowN sc P c prevRow n).getD k 0 =
      dpCellVal sc P c prevRow (dpRowN sc P c prevRow k) k := by
  rw [dpRowN_getD_stable sc P c prevRow hk]
  show (dpRowN sc P c prevRow k ++ _).getD k 0 = _
  rw [List.getD_append_right]
  · simp [dpRowN_length]
  · rw [dpRowN_length]

theorem foldl_max_fun_congr {α : Type} {f f' : α → Int} :
    ∀ (l : List α) (b : Int), (∀ k ∈ l, f k = f' k) →
      l.foldl (fun acc k => max acc (f k)) b = l.foldl (fun acc k => max acc (f' k)) b := by
  intro l
  induction l with
  | nil => intro _ _; rfl
  | cons x xs ih =>
    intro b h
    simp only [List.foldl_cons]
    rw [h x (List.mem_cons_self x xs)]
    exact ih _ (fun k hk => h k (List.mem_cons_of_mem x hk))

/-- `dpCellVal` only reads `curRow` at the dependency offsets of its column. -/
theorem dpCellVal_congr (sc : Scores) (P : ColRef) (c : Char) (prevRow : List Int)
    {curRow curRow' : List Int} (j : Nat)
    (h : ∀ k ∈ P.depsAt j, curRow.getD k 0 = curRow'.getD k 0) :
    dpCellVal sc P c prevRow curRow j = dpCellVal sc P c prevRow curRow' j := by
  unfold dpCellVal
  rw [foldl_max_fun_congr (P.depsAt j) (-1)
    (fun k hk => by rw [h k hk])]

/-- The cell equation for a full row: under the topological-order invariant,
cell `j` of a row equals the loop body applied to the *final* row (the
dependencies it reads were already final when it was computed). -/
theorem dpRow_getD (sc : Scores) (P : ColRef) (c : Char) (prevRow : List Int)
    (hP : P.depsLt) {j : Nat} (hj : j < P.width) :
    (dpRow sc P c prevRow).getD j 0 =
      dpCellVal sc P c prevRow (dpRow sc P c prevRow) j := by
  rw [dpRow, dpRowN_getD_cell sc P c prevRow hj]
  apply dpCellVal_congr
  intro k hk
  have hkj : k < j := hP j k hk
  rw [dpRowN_getD_stable sc P c prevRow hkj,
      dpRowN_getD_stable sc P c prevRow (Nat.lt_of_lt_of_le hkj (Nat.le_of_lt hj))]

theorem dpRows_length (sc : Scores) (P : ColRef) :
    ∀ (cs : List Char) (prevRow : List Int), (dpRows sc P cs prevRow).length = cs.length := by
  intro cs
  induction cs with
  | nil => intro; rfl
  | cons c cs ih => intro prevRow; simp [dpRows, ih]

/-- Row `r` of the DP matrix is `dpRow` applied to row `r-1` (or to the zero
row when `r = 0`). -/
theorem dpRows_getD (sc : Scores) (P : ColRef) :
    ∀ (cs : List Char) (prevRow : List Int) (r : Nat), r < cs.length →
      (dpRows sc P cs prevRow).getD r [] =
        dpRow sc P (cs.getD r '?')
          (match r with
           | 0 => prevRow
           | r' + 1 => (dpRows sc P cs prevRow).getD r' []) := by
  intro cs
  induction cs with
  | nil => intro _ r hr; simp at hr
  | cons c cs ih =>
    intro prevRow r hr
    match r with
    | 0 => rfl
    | r' + 1 =>
      show (dpRows sc P cs _).getD r' [] = _
      rw [ih _ r' (by simpa using hr)]
      match r' with
      | 0 => rfl
      | _ + 1 => rfl

theorem le_foldl_max_init {α : Type} (f : α → Int) :
    ∀ (l : List α) (b : Int), b ≤ l.foldl (fun acc k => max acc (f k)) b := by
  intro l
  induction l with
  | nil => intro b; exact le_refl b
  | cons x xs ih =>
    intro b
    exact le_trans (le_max_left b (f x)) (ih (max b (f x)))

theorem le_foldl_max_mem {α : Type} (f : α → Int) :
    ∀ (l : List α) (b : Int) (k : α), k ∈ l →
      f k ≤ l.foldl (fun acc k => max acc (f k)) b := by
  intro l
  induction l with
  | nil => intro _ _ h; exact absurd h (List.not_mem_nil _)
  | cons x xs ih =>
    intro b k hk
    rcases List.mem_cons.mp hk with h | h
    · subst h
      exact le_trans (le_max_right b (f k)) (le_foldl_max_init f xs _)
    · exact ih _ k h

theorem foldl_max_le {α : Type} (f : α → Int) :
    ∀ (l : List α) (b B : Int), b ≤ B → (∀ k ∈ l, f k ≤ B) →
      l.foldl (fun acc k => max acc (f k)) b ≤ B := by
  intro l
  induction l with
  | nil => intro _ _ hb _; exact hb
  | cons x xs ih =>
    intro b B hb h
    exact ih _ B (max_le hb (h x (List.mem_cons_self x xs)))
      (fun k hk => h k (List.mem_cons_of_mem x hk))

theorem le_foldr_max_base : ∀ (l : List Int) (b : Int), b ≤ l.foldr max b := by
  intro l
  induction l with
  | nil => intro b; exact le_refl b
  | cons x xs ih => intro b; exact le_trans (ih b) (le_max_right x _)

theorem le_foldr_max_mem :
    ∀ (l : List Int) (b x : Int), x ∈ l → x ≤ l.foldr max b := by
  intro l
  induction l with
  | nil => intro _ _ h; exact absurd h (List.not_mem_nil _)
  | cons y ys ih =>
    intro b x hx
    rcases List.mem_cons.mp hx with h | h
    · subst h; exact le_max_left x _
    · exact le_trans (ih b x h) (le_max_right y _)

theorem foldr_max_le :
    ∀ (l : List Int) (b B : Int), b ≤ B → (∀ x ∈ l, x ≤ B) → l.foldr max b ≤ B := by
  intro l
  induction l with
  | nil => intro _ _ hb _; exact hb
  | cons y ys ih =>
    intro b B hb h
    exact max_le (h y (List.mem_cons_self y ys))
      (ih b B hb (fun x hx => h x (List.mem_cons_of_mem y hx)))

theorem getD_replicate_zero : ∀ (n k : Nat), (List.replicate n (0 : Int)).getD k 0 = 0 := by
  intro n
  induction n with
  | zero => intro k; rfl
  | succ n ih =>
    intro k
    match k with
    | 0 => rfl
    | k + 1 => exact ih k

theorem graph_colRef_depsLt {g : Graph} (hg : g.topIn) : g.colRef.depsLt := by
  intro j k hk
  exact Graph.topIn_nbr hg j k hk

/-- The scalar Phase 1 cell equation: under the topological-order invariant
the computed cell agrees with the specification's recurrence. -/
theorem dpRows_getD_zero (sc : Scores) (P : ColRef) (cs : List Char) (prevRow : List Int)
    (h : 0 < cs.length) :
    (dpRows sc P cs prevRow).getD 0 [] = dpRow sc P (cs.getD 0 '?') prevRow :=
  dpRows_getD sc P cs prevRow 0 h

theorem dpRows_getD_succ (sc : Scores) (P : ColRef) (cs : List Char) (prevRow : List Int)
    (r : Nat) (h : r + 1 < cs.length) :
    (dpRows sc P cs prevRow).getD (r + 1) [] =
      dpRow sc P (cs.getD (r + 1) '?') ((dpRows sc P cs prevRow).getD r []) :=
  dpRows_getD sc P cs prevRow (r + 1) h

theorem phase1_cell_eq (sc : Scores) (g : Graph) (read : List Char) (hg : g.topIn)
    {r v : Nat} (hr : r < read.length) (hv : v < g.numVertices) :
    cellAt (phase1Matrix sc g read) r v = phase1CellSpec sc g read r v := by
  have hwidth : g.colRef.width = g.numVertices := rfl
  obtain ⟨prevRow, hrow, hprevAt⟩ : ∃ pr : List Int,
      (phase1Matrix sc g read).getD r [] = dpRow sc g.colRef (read.getD r '?') pr ∧
      ∀ p, pr.getD p 0 =
        (if r = 0 then (0 : Int) else cellAt (phase1Matrix sc g read) (r - 1) p) := by
    cases r with
    | zero =>
      refine ⟨List.replicate g.colRef.width 0, ?_, ?_⟩
      · exact dpRows_getD_zero sc g.colRef read _ hr
      · intro p; simp [getD_replicate_zero]
    | succ r' =>
      refine ⟨(phase1Matrix sc g read).getD r' [], ?_, ?_⟩
      · exact dpRows_getD_succ sc g.colRef read _ r' hr
      · intro p; simp [cellAt]
  have hcell : cellAt (phase1Matrix sc g read) r v =
      dpCellVal sc g.colRef (read.getD r '?') prevRow (dpRow sc g.colRef (read.getD r '?') prevRow) v := by
    rw [cellAt, hrow]
    exact dpRow_getD sc g.colRef (read.getD r '?') prevRow (graph_colRef_depsLt hg) (by rw [hwidth]; exact hv)
  have hcur : ∀ p, (dpRow sc g.colRef (read.getD r '?') prevRow).getD p 0 =
      cellAt (phase1Matrix sc g read) r p := by
    intro p
    rw [cellAt, hrow]
  rw [hcell]
  unfold dpCellVal phase1CellSpec
  simp only
  have hchar : g.colRef.charAt v = g.label v := rfl
  have hdeps : g.colRef.depsAt v = g.inNbr v := rfl
  rw [hchar, hdeps]
  set m := phase1Matrix sc g read with hm
  set sub := matchScore sc (read.getD r '?') (g.label v) with hsub
  set prevAt : Nat → Int := fun p => if r = 0 then 0 else cellAt m (r - 1) p with hprevAtDef
  have hpA : ∀ p, prevRow.getD p 0 = prevAt p := hprevAt
  set L : List Int :=
      ([sub] ++ ((g.inNbr v).map fun p => prevAt p + sub)
        ++ ((g.inNbr v).map fun p => cellAt m r p - (sc.delS : Int))
        ++ [prevAt v - (sc.insS : Int)]) with hL
  have hsubL : sub ∈ L := by
    rw [hL]; simp
  have hinsL : prevAt v - (sc.insS : Int) ∈ L := by
    rw [hL]; simp
  have hAL : ∀ p ∈ g.inNbr v, prevAt p + sub ∈ L := by
    intro p hp
    rw [hL]
    simp only [List.mem_append, List.mem_singleton, List.mem_map]
    exact Or.inl (Or.inl (Or.inr ⟨p, hp, rfl⟩))
  have hBL : ∀ p ∈ g.inNbr v, cellAt m r p - (sc.delS : Int) ∈ L := by
    intro p hp
    rw [hL]
    simp only [List.mem_append, List.mem_singleton, List.mem_map]
    exact Or.inl (Or.inr ⟨p, hp, rfl⟩)
  have hRnonneg : (0 : Int) ≤ L.foldr max 0 := le_foldr_max_base L 0
  apply le_antisymm
  · -- computed cell ≤ spec maximum
    apply max_le
    · apply max_le
      · -- fromInsertion
        rw [hpA v]
        exact le_foldr_max_mem L 0 _ hinsL
      · -- fromMatch
        apply foldl_max_le
        · exact le_foldr_max_mem L 0 _ hsubL
        · intro p hp
          rw [hpA p]
          exact le_foldr_max_mem L 0 _ (hAL p hp)
    · apply max_le
      · -- fromDeletion
        apply foldl_max_le
        · exact le_trans (by norm_num) hRnonneg
        · intro p hp
          rw [hcur p]
          exact le_foldr_max_mem L 0 _ (hBL p hp)
      · exact hRnonneg
  · -- spec maximum ≤ computed cell
    apply foldr_max_le
    · exact le_trans (le_max_right _ 0) (le_max_right _ _)
    · intro x hx
      rw [hL] at hx
      simp only [List.mem_append, List.mem_singleton, List.mem_map] at hx
      rcases hx with ((hx | ⟨p, hp, hpx⟩) | ⟨p, hp, hpx⟩) | hx
      · subst hx
        refine le_trans ?_ (le_max_left _ _)
        refine le_trans ?_ (le_max_right _ _)
        exact le_foldl_max_init _ _ _
      · subst hpx
        refine le_trans ?_ (le_max_left _ _)
        refine le_trans ?_ (le_max_right _ _)
        rw [← hpA p]
        exact le_foldl_max_mem _ _ _ p hp
      · subst hpx
        refine le_trans ?_ (le_max_right _ _)
        refine le_trans ?_ (le_max_left _ _)
        rw [← hcur p]
        exact le_foldl_max_mem _ _ _ p hp
      · subst hx
        refine le_trans ?_ (le_max_left _ _)
        refine le_trans ?_ (le_max_left _ _)
        rw [← hpA v]

theorem getD_prop {α : Type} (Q : α → Prop) :
    ∀ (l : List α) (k : Nat) (d : α), Q d → (∀ x ∈ l, Q x) → Q (l.getD k d) := by
  intro l
  induction l with
  | nil => intro _ _ hd _; exact hd
  | cons x xs ih =>
    intro k d hd h
    match k with
    | 0 => exact h x (List.mem_cons_self x xs)
    | k + 1 => exact ih k d hd (fun y hy => h y (List.mem_cons_of_mem x hy))

theorem matchScore_le (sc : Scores) (a b : Char) :
    matchScore sc a b ≤ (sc.matchS : Int) := by
  unfold matchScore
  split
  · exact le_refl _
  · have h1 : (0 : Int) ≤ (sc.mismatchS : Int) := Int.ofNat_nonneg _
    have h2 : (0 : Int) ≤ (sc.matchS : Int) := Int.ofNat_nonneg _
    omega

theorem dpRowN_nonneg (sc : Scores) (P : ColRef) (c : Char) (prevRow : List Int) :
    ∀ n, ∀ x ∈ dpRowN sc P c prevRow n, 0 ≤ x := by
  intro n
  induction n with
  | zero => intro x hx; exact absurd hx (List.not_mem_nil _)
  | succ n ih =>
    intro x hx
    rcases List.mem_append.mp hx with h | h
    · exact ih x h
    · rw [List.mem_singleton] at h
      subst h
      exact le_trans (le_max_right _ 0) (le_max_right _ _)

theorem dpMatrix_cell_nonneg (sc : Scores) (P : ColRef) (read : List Char) :
    ∀ r j, 0 ≤ cellAt (dpMatrix sc P read) r j := by
  have hrows : ∀ (cs : List Char) (prevRow : List Int),
      ∀ row ∈ dpRows sc P cs prevRow, ∀ x ∈ row, (0 : Int) ≤ x := by
    intro cs
    induction cs with
    | nil => intro _ row hrow; exact absurd hrow (List.not_mem_nil _)
    | cons c cs ih =>
      intro prevRow row hrow
      rcases List.mem_cons.mp hrow with h | h
      · subst h; exact dpRowN_nonneg sc P c prevRow P.width
      · exact ih _ row h
  intro r j
  unfold cellAt
  refine getD_prop (fun x => 0 ≤ x) _ j 0 (le_refl 0) ?_
  intro x hx
  revert x
  refine getD_prop (fun row => ∀ x ∈ row, (0:Int) ≤ x) _ r [] ?_ ?_
  · intro x hx; exact absurd hx (List.not_mem_nil _)
  · exact hrows read (List.replicate P.width 0)

theorem dpRowN_le (sc : Scores) (P : ColRef) (c : Char) (prevRow : List Int)
    (B : Int) (hB : 0 ≤ B) (hprev : ∀ p, prevRow.getD p 0 ≤ B) :
    ∀ n, ∀ x ∈ dpRowN sc P c prevRow n, x ≤ B + (sc.matchS : Int) := by
  have hm : (0 : Int) ≤ (sc.matchS : Int) := Int.ofNat_nonneg _
  intro n
  induction n with
  | zero => intro x hx; exact absurd hx (List.not_mem_nil _)
  | succ n ih =>
    intro x hx
    rcases List.mem_append.mp hx with h | h
    · exact ih x h
    · rw [List.mem_singleton] at h
      subst h
      have hms := matchScore_le sc c (P.charAt n)
      unfold dpCellVal
      apply max_le
      · apply max_le
        · have := hprev n
          have hins : (0 : Int) ≤ (sc.insS : Int) := Int.ofNat_nonneg _
          omega
        · apply foldl_max_le
          · omega
          · intro k _
            have := hprev k
            omega
      · apply max_le
        · apply foldl_max_le
          · omega
          · intro k _
            have hcur : (dpRowN sc P c prevRow n).getD k 0 ≤ B + (sc.matchS : Int) :=
              getD_prop (fun x => x ≤ B + (sc.matchS : Int)) _ k 0 (by omega) ih
            have hdel : (0 : Int) ≤ (sc.delS : Int) := Int.ofNat_nonneg _
            omega
        · omega

theorem dpRows_row_le (sc : Scores) (P : ColRef) :
    ∀ (cs : List Char) (prevRow : List Int) (B : Int), 0 ≤ B →
      (∀ p, prevRow.getD p 0 ≤ B) →
      ∀ r, r < cs.length →
        ∀ x ∈ (dpRows sc P cs prevRow).getD r [],
          x ≤ B + ((r + 1 : Nat) : Int) * (sc.matchS : Int) := by
  intro cs
  induction cs with
  | nil => intro _ _ _ _ r hr; simp at hr
  | cons c cs ih =>
    intro prevRow B hB hprev r hr x hx
    have hm : (0 : Int) ≤ (sc.matchS : Int) := Int.ofNat_nonneg _
    cases r with
    | zero =>
      have hx' : x ∈ dpRow sc P c prevRow := hx
      have := dpRowN_le sc P c prevRow B hB hprev P.width x hx'
      have hcast : ((0 + 1 : Nat) : Int) * (sc.matchS : Int) = (sc.matchS : Int) := by
        push_cast; ring
      rw [hcast]
      exact this
    | succ r' =>
      have hx' : x ∈ (dpRows sc P cs (dpRow sc P c prevRow)).getD r' [] := hx
      have hprev' : ∀ p, (dpRow sc P c prevRow).getD p 0 ≤ B + (sc.matchS : Int) := by
        intro p
        exact getD_prop (fun x => x ≤ B + (sc.matchS : Int)) _ p 0 (by omega)
          (dpRowN_le sc P c prevRow B hB hprev P.width)
      have := ih (dpRow sc P c prevRow) (B + (sc.matchS : Int)) (by omega) hprev' r'
        (by simpa using hr) x hx'
      have hcast : ((r' + 1 + 1 : Nat) : Int) * (sc.matchS : Int) =
          ((r' + 1 : Nat) : Int) * (sc.matchS : Int) + (sc.matchS : Int) := by
        push_cast; ring
      rw [hcast]
      linarith

theorem dpRowN_colBound (sc : Scores) (P : ColRef) (c : Char) (prevRow : List Int)
    (hP : P.depsLt)
    (hprev : ∀ p, prevRow.getD p 0 ≤ ((p + 1 : Nat) : Int) * (sc.matchS : Int)) :
    ∀ n j, j < n →
      (dpRowN sc P c prevRow n).getD j 0 ≤ ((j + 1 : Nat) : Int) * (sc.matchS : Int) := by
  have hm : (0 : Int) ≤ (sc.matchS : Int) := Int.ofNat_nonneg _
  intro n
  induction n with
  | zero => intro j hj; omega
  | succ n ih =>
    intro j hj
    rcases Nat.lt_or_ge j n with h | h
    · rw [dpRowN_getD_cell sc P c prevRow hj, ← dpRowN_getD_cell sc P c prevRow h]
      exact ih j h
    · have hjn : j = n := by omega
      subst hjn
      rw [dpRowN_getD_cell sc P c prevRow hj]
      have hms := matchScore_le sc c (P.charAt j)
      have hmono : ∀ a b : Nat, a ≤ b →
          ((a : Nat) : Int) * (sc.matchS : Int) ≤ ((b : Nat) : Int) * (sc.matchS : Int) := by
        intro a b hab
        exact mul_le_mul_of_nonneg_right (by exact_mod_cast hab) hm
      have hjm : (0 : Int) ≤ ((j + 1 : Nat) : Int) * (sc.matchS : Int) := by
        positivity
      unfold dpCellVal
      apply max_le
      · apply max_le
        · have := hprev j
          have hins : (0 : Int) ≤ (sc.insS : Int) := Int.ofNat_nonneg _
          omega
        · apply foldl_max_le
          · have hone : (sc.matchS : Int) = ((1 : Nat) : Int) * (sc.matchS : Int) := by
              push_cast; ring
            calc matchScore sc c (P.charAt j) ≤ (sc.matchS : Int) := hms
              _ = ((1 : Nat) : Int) * (sc.matchS : Int) := hone
              _ ≤ ((j + 1 : Nat) : Int) * (sc.matchS : Int) := hmono 1 (j + 1) (by omega)
          · intro k hk
            have hkj : k < j := hP j k hk
            calc prevRow.getD k 0 + matchScore sc c (P.charAt j)
                ≤ ((k + 1 : Nat) : Int) * (sc.matchS : Int) + (sc.matchS : Int) :=
                  add_le_add (hprev k) hms
              _ = ((k + 2 : Nat) : Int) * (sc.matchS : Int) := by push_cast; ring
              _ ≤ ((j + 1 : Nat) : Int) * (sc.matchS : Int) := hmono (k + 2) (j + 1) (by omega)
      · apply max_le
        · apply foldl_max_le
          · omega
          · intro k hk
            have hkj : k < j := hP j k hk
            have hdel : (0 : Int) ≤ (sc.delS : Int) := Int.ofNat_nonneg _
            have hcur : (dpRowN sc P c prevRow j).getD k 0 ≤
                ((k + 1 : Nat) : Int) * (sc.matchS : Int) := ih k hkj
            have := hmono (k + 1) (j + 1) (by omega)
            omega
        · exact hjm

theorem dpRows_colBound (sc : Scores) (P : ColRef) (hP : P.depsLt) :
    ∀ (cs : List Char) (prevRow : List Int),
      (∀ p, prevRow.getD p 0 ≤ ((p + 1 : Nat) : Int) * (sc.matchS : Int)) →
      ∀ r j, r < cs.length →
        ((dpRows sc P cs prevRow).getD r []).getD j 0 ≤
          ((j + 1 : Nat) : Int) * (sc.matchS : Int) := by
  have hm : (0 : Int) ≤ (sc.matchS : Int) := Int.ofNat_nonneg _
  have hrow : ∀ (c : Char) (prevRow : List Int),
      (∀ p, prevRow.getD p 0 ≤ ((p + 1 : Nat) : Int) * (sc.matchS : Int)) →
      ∀ j, (dpRow sc P c prevRow).getD j 0 ≤ ((j + 1 : Nat) : Int) * (sc.matchS : Int) := by
    intro c prevRow hprev j
    rcases Nat.lt_or_ge j P.width with h | h
    · exact dpRowN_colBound sc P c prevRow hP hprev P.width j h
    · rw [dpRow, List.getD_eq_default]
      · positivity
      · rw [dpRowN_length]; exact h
  intro cs
  induction cs with
  | nil => intro _ _ _ _ hr; simp at hr
  | cons c cs ih =>
    intro prevRow hprev r j hr
    cases r with
    | zero => exact hrow c prevRow hprev j
    | succ r' =>
      exact ih (dpRow sc P c prevRow) (fun p => hrow c prevRow hprev p) r' j
        (by simpa using hr)

theorem phase1ScanF_mem {height width : Nat} {rv : Nat × Nat} :
    rv ∈ phase1ScanF height width ↔ rv.1 < height ∧ rv.2 < width := by
  unfold phase1ScanF
  constructor
  · intro h
    rcases List.mem_flatMap.mp h with ⟨i, hi, hmem⟩
    rcases List.mem_map.mp hmem with ⟨j, hj, hrv⟩
    subst hrv
    exact ⟨List.mem_range.mp hi, List.mem_range.mp hj⟩
  · intro ⟨h1, h2⟩
    refine List.mem_flatMap.mpr ⟨rv.1, List.mem_range.mpr h1, ?_⟩
    exact List.mem_map.mpr ⟨rv.2, List.mem_range.mpr h2, by simp⟩

theorem bestUpd_score (cells : Nat → Nat → Int) (b : BestScoreInfo) (ij : Nat × Nat) :
    (bestUpd cells b ij).score = max b.score (cells ij.1 ij.2) := by
  unfold bestUpd
  split
  · next h => simp [max_eq_right (le_of_lt h)]
  · next h => simp [max_eq_left (not_lt.mp h)]

theorem foldl_bestUpd_score (cells : Nat → Nat → Int) :
    ∀ (l : List (Nat × Nat)) (b : BestScoreInfo),
      (l.foldl (bestUpd cells) b).score =
        l.foldl (fun s ij => max s (cells ij.1 ij.2)) b.score := by
  intro l
  induction l with
  | nil => intro b; rfl
  | cons x xs ih =>
    intro b
    simp only [List.foldl_cons]
    rw [ih, bestUpd_score]

/-- The upper bound of every Phase 1 cell: `min(|V|, |read|) * match`. -/
theorem phase1_cell_bound (sc : Scores) (g : Graph) (read : List Char) (hg : g.topIn)
    {r v : Nat} (hr : r < read.length) (hv : v < g.numVertices) :
    cellAt (phase1Matrix sc g read) r v ≤
      ((min g.numVertices read.length : Nat) : Int) * (sc.matchS : Int) := by
  have hm : (0 : Int) ≤ (sc.matchS : Int) := Int.ofNat_nonneg _
  have hmono : ∀ a b : Nat, a ≤ b →
      ((a : Nat) : Int) * (sc.matchS : Int) ≤ ((b : Nat) : Int) * (sc.matchS : Int) := by
    intro a b hab
    exact mul_le_mul_of_nonneg_right (by exact_mod_cast hab) hm
  rcases Nat.le_total g.numVertices read.length with h | h
  · rw [Nat.min_eq_left h]
    have hcol := dpRows_colBound sc g.colRef (graph_colRef_depsLt hg) read
      (List.replicate g.colRef.width 0)
      (fun p => by rw [getD_replicate_zero]; positivity) r v hr
    calc cellAt (phase1Matrix sc g read) r v
        ≤ ((v + 1 : Nat) : Int) * (sc.matchS : Int) := hcol
      _ ≤ ((g.numVertices : Nat) : Int) * (sc.matchS : Int) := hmono (v + 1) _ (by omega)
  · rw [Nat.min_eq_right h]
    have hrowle := dpRows_row_le sc g.colRef read (List.replicate g.colRef.width 0) 0
      (le_refl 0) (fun p => by rw [getD_replicate_zero]) r hr
    have hx : cellAt (phase1Matrix sc g read) r v ≤
        0 + ((r + 1 : Nat) : Int) * (sc.matchS : Int) := by
      unfold cellAt
      refine getD_prop (fun x => x ≤ 0 + ((r + 1 : Nat) : Int) * (sc.matchS : Int)) _ v 0
        ?_ hrowle
      positivity
    calc cellAt (phase1Matrix sc g read) r v
        ≤ 0 + ((r + 1 : Nat) : Int) * (sc.matchS : Int) := hx
      _ = ((r + 1 : Nat) : Int) * (sc.matchS : Int) := by ring
      _ ≤ ((read.length : Nat) : Int) * (sc.matchS : Int) := hmono (r + 1) _ (by omega)

/-- C1: for every topologically sorted graph and every read, the scalar
Phase 1 kernel computes each DP cell `(r, v)` as
`max(0, sub, max_p cell(r-1,p)+sub, max_p cell(r,p)-del, cell(r-1,v)-ins)`
with `sub = match` when `read[r]` equals `label(v)` and `-mismatch` otherwise,
and all row `r-1` terms taken as `0` when `r = 0`. -/
theorem C1_phase1_recurrence (sc : Scores) (g : Graph) (read : List Char)
    (hg : g.topIn) {r v : Nat} (hr : r < read.length) (hv : v < g.numVertices) :
    cellAt (phase1Matrix sc g read) r v = phase1CellSpec sc g read r v :=
  phase1_cell_eq sc g read hg hr hv

theorem C1_phase1_recurrence_witness :
    gChain2.topIn ∧ 1 < (['A', 'C'] : List Char).length ∧ 1 < gChain2.numVertices ∧
      cellAt (phase1Matrix scoreUnit gChain2 ['A', 'C']) 1 1 =
        phase1CellSpec scoreUnit gChain2 ['A', 'C'] 1 1 :=
  ⟨by decide, by decide, by decide,
    C1_phase1_recurrence scoreUnit gChain2 ['A', 'C'] (by decide) (by decide) (by decide)⟩

/-- C9: every Phase 1 DP cell lies in `[0, min(|V|,|read|)·match]`, and at
every point of the scan the running best score is at least every
already-computed cell and at most the same bound. -/
theorem C9_phase1_score_bounds (sc : Scores) (g : Graph) (read : List Char)
    (hg : g.topIn) :
    (∀ r, r < read.length → ∀ v, v < g.numVertices →
        0 ≤ cellAt (phase1Matrix sc g read) r v ∧
        cellAt (phase1Matrix sc g read) r v ≤
          ((min g.numVertices read.length : Nat) : Int) * (sc.matchS : Int)) ∧
    (∀ n,
        (∀ rv ∈ (phase1ScanF read.length g.numVertices).take n,
            cellAt (phase1Matrix sc g read) rv.1 rv.2 ≤ (runningBest sc g read n).score) ∧
        0 ≤ (runningBest sc g read n).score ∧
        (runningBest sc g read n).score ≤
          ((min g.numVertices read.length : Nat) : Int) * (sc.matchS : Int)) := by
  have hbound : ∀ rv ∈ phase1ScanF read.length g.numVertices,
      cellAt (phase1Matrix sc g read) rv.1 rv.2 ≤
        ((min g.numVertices read.length : Nat) : Int) * (sc.matchS : Int) := by
    intro rv hrv
    rcases phase1ScanF_mem.mp hrv with ⟨h1, h2⟩
    exact phase1_cell_bound sc g read hg h1 h2
  have hBnonneg : (0 : Int) ≤ ((min g.numVertices read.length : Nat) : Int) * (sc.matchS : Int) := by
    positivity
  constructor
  · intro r hr v hv
    exact ⟨dpMatrix_cell_nonneg sc g.colRef read r v, phase1_cell_bound sc g read hg hr hv⟩
  · intro n
    have hscore : (runningBest sc g read n).score =
        ((phase1ScanF read.length g.numVertices).take n).foldl
          (fun s ij => max s (cellAt (phase1Matrix sc g read) ij.1 ij.2)) 0 :=
      foldl_bestUpd_score _ _ _
    refine ⟨?_, ?_, ?_⟩
    · intro rv hrv
      rw [hscore]
      exact le_foldl_max_mem _ _ 0 rv hrv
    · rw [hscore]
      exact le_foldl_max_init _ _ 0
    · rw [hscore]
      apply foldl_max_le
      · exact hBnonneg
      · intro rv hrv
        exact hbound rv (List.mem_of_mem_take hrv)

theorem C9_phase1_score_bounds_witness :
    gChain2.topIn ∧
      ((∀ r, r < (['A', 'C'] : List Char).length → ∀ v, v < gChain2.numVertices →
          0 ≤ cellAt (phase1Matrix scoreUnit gChain2 ['A', 'C']) r v ∧
          cellAt (phase1Matrix scoreUnit gChain2 ['A', 'C']) r v ≤
            ((min gChain2.numVertices (['A', 'C'] : List Char).length : Nat) : Int) *
              (scoreUnit.matchS : Int)) ∧
      (∀ n,
          (∀ rv ∈ (phase1ScanF (['A', 'C'] : List Char).length gChain2.numVertices).take n,
              cellAt (phase1Matrix scoreUnit gChain2 ['A', 'C']) rv.1 rv.2 ≤
                (runningBest scoreUnit gChain2 ['A', 'C'] n).score) ∧
          0 ≤ (runningBest scoreUnit gChain2 ['A', 'C'] n).score ∧
          (runningBest scoreUnit gChain2 ['A', 'C'] n).score ≤
            ((min gChain2.numVertices (['A', 'C'] : List Char).length : Nat) : Int) *
              (scoreUnit.matchS : Int))) :=
  ⟨by decide, C9_phase1_score_bounds scoreUnit gChain2 ['A', 'C'] (by decide)⟩

theorem getD_replicate {α : Type} (d : α) :
    ∀ n k, (List.replicate n d).getD k d = d := by
  intro n
  induction n with
  | zero => intro k; rfl
  | succ n ih =>
    intro k
    match k with
    | 0 => rfl
    | k + 1 => exact ih k

theorem foldl_flatMap_eq {α β γ : Type} (f : α → List β) (step : γ → β → γ) :
    ∀ (l : List α) (init : γ),
      (l.flatMap f).foldl step init =
        l.foldl (fun acc i => (f i).foldl step acc) init := by
  intro l
  induction l with
  | nil => intro _; rfl
  | cons x xs ih =>
    intro init
    rw [List.flatMap_cons, List.foldl_append, List.foldl_cons, ih]

theorem getD_set_true (l : List Bool) (j u : Nat) :
    (l.set j true).getD u false =
      (if j = u ∧ u < l.length then true else l.getD u false) := by
  by_cases hju : j = u
  · subst hju
    by_cases hj : j < l.length
    · rw [List.getD_eq_getElem?_getD, List.getElem?_set_eq_of_lt _ hj,
          if_pos ⟨rfl, hj⟩]
      rfl
    · rw [List.set_eq_of_length_le (by omega), if_neg (fun h => hj h.2)]
  · rw [List.getD_eq_getElem?_getD, List.getElem?_set_ne hju,
        ← List.getD_eq_getElem?_getD, if_neg (fun h => hju h.1)]

/-- A fold of conditional `set _ true` operations yields `true` at `u` iff the
accumulator already had `true` there or some processed element targets `u`
(within range) and satisfies the condition. -/
theorem foldl_markTrue_getD {β : Type} (tgt : β → Nat) (cond : β → Prop)
    [DecidablePred cond] :
    ∀ (L : List β) (acc : List Bool) (u : Nat),
      ((L.foldl (fun a x => if cond x then a.set (tgt x) true else a) acc).getD u false = true ↔
        (acc.getD u false = true ∨ ∃ x ∈ L, cond x ∧ tgt x = u ∧ u < acc.length)) := by
  intro L
  induction L with
  | nil =>
    intro acc u
    simp
  | cons x xs ih =>
    intro acc u
    simp only [List.foldl_cons]
    by_cases hc : cond x
    · rw [if_pos hc, ih (acc.set (tgt x) true) u]
      rw [getD_set_true, List.length_set]
      constructor
      · intro h
        rcases h with h | ⟨y, hy, hcy, hty, hu⟩
        · split at h
          · next hcond => exact Or.inr ⟨x, List.mem_cons_self x xs, hc, hcond.1, hcond.2⟩
          · exact Or.inl h
        · exact Or.inr ⟨y, List.mem_cons_of_mem x hy, hcy, hty, hu⟩
      · intro h
        rcases h with h | ⟨y, hy, hcy, hty, hu⟩
        · left
          split
          · rfl
          · exact h
        · rcases List.mem_cons.mp hy with hyx | hyx
          · subst hyx
            left
            rw [if_pos ⟨hty, hu⟩]
          · exact Or.inr ⟨y, hyx, hcy, hty, hu⟩
    · rw [if_neg hc, ih acc u]
      constructor
      · intro h
        rcases h with h | ⟨y, hy, hcy, hty, hu⟩
        · exact Or.inl h
        · exact Or.inr ⟨y, List.mem_cons_of_mem x hy, hcy, hty, hu⟩
      · intro h
        rcases h with h | ⟨y, hy, hcy, hty, hu⟩
        · exact Or.inl h
        · rcases List.mem_cons.mp hy with hyx | hyx
          · subst hyx; exact absurd hcy hc
          · exact Or.inr ⟨y, hyx, hcy, hty, hu⟩

/-- The in-edge pair list that both long-hop classifiers sweep. -/
theorem computeLongHopsRev_eq_markFold (g : Graph) :
    computeLongHopsRev g =
      ((List.range g.numVertices).flatMap
          (fun i => (g.inNbr i).map (fun p => (i, p)))).foldl
        (fun a x => if blockWidth ≤ x.1 - x.2 then a.set x.1 true else a)
        (List.replicate g.numVertices false) := by
  rw [foldl_flatMap_eq]
  unfold computeLongHopsRev
  congr 1
  funext acc i
  rw [List.foldl_map]

/-- The reverse-pass classifier marks exactly the vertices with a long
*in*-edge: `withLongHop[u] = true` iff some in-neighbor `p` of `u` satisfies
`u - p ≥ blockWidth`.  The mark sits on the edge's target (the larger id). -/
theorem computeLongHopsRev_spec (g : Graph) (u : Nat) (hu : u < g.numVertices) :
    ((computeLongHopsRev g).getD u false = true ↔
      ∃ p ∈ g.inNbr u, blockWidth ≤ u - p) := by
  rw [computeLongHopsRev_eq_markFold,
      foldl_markTrue_getD (fun x : Nat × Nat => x.1) (fun x : Nat × Nat => blockWidth ≤ x.1 - x.2)]
  rw [getD_replicate, List.length_replicate]
  constructor
  · intro h
    rcases h with h | ⟨⟨i, p⟩, hmem, hcond, htgt, _⟩
    · exact absurd h (by simp)
    · rcases List.mem_flatMap.mp hmem with ⟨a, ha, hmem2⟩
      rcases List.mem_map.mp hmem2 with ⟨q, hq, heq⟩
      have hia : i = a ∧ p = q := by
        constructor <;> · injection heq with h1 h2; omega
      rcases hia with ⟨rfl, rfl⟩
      cases htgt
      exact ⟨p, hq, hcond⟩
  · intro ⟨p, hp, hcond⟩
    refine Or.inr ⟨(u, p), ?_, hcond, rfl, hu⟩
    exact List.mem_flatMap.mpr ⟨u, List.mem_range.mpr hu,
      List.mem_map.mpr ⟨p, hp, rfl⟩⟩

/-- C7 counterexample: in `gLong` the only edge is 0→8 with hop exactly
`blockWidth`.  The claim says the reverse-pass classifier marks the *source*
vertex 0; the code marks the *target* vertex 8 (and vertex 8 has no out-edge
at all). -/
theorem C7_counterexample :
    (8 ∈ gLong.outNbr 0 ∧ blockWidth ≤ 8 - 0) ∧
    (computeLongHopsRev gLong).getD 0 false = false ∧
    (computeLongHopsRev gLong).getD 8 false = true ∧
    gLong.outNbr 8 = [] := by
  decide

/-- C7 amended: in the reverse-pass long-hop classification a vertex `u` is
marked "long" exactly when some *in*-edge arrives from some `p` with
`u - p ≥ blockWidth`; the mark is placed on the edge's target (the larger
id). -/
theorem C7_rev_longhop_marks_target (g : Graph) (u : Nat) (hu : u < g.numVertices) :
    ((computeLongHopsRev g).getD u false = true ↔
      ∃ p ∈ g.inNbr u, blockWidth ≤ u - p) :=
  computeLongHopsRev_spec g u hu

theorem C7_rev_longhop_marks_target_witness :
    8 < gLong.numVertices ∧
      ((computeLongHopsRev gLong).getD 8 false = true ↔
        ∃ p ∈ gLong.inNbr 8, blockWidth ≤ 8 - p) :=
  ⟨by decide, C7_rev_longhop_marks_target gLong 8 (by decide)⟩

/-- The loader's edge vector, characterized over the lines after the header:
the fold from row `r ≥ 1` appends, for the line at enumerated position
`(row, tokens)`, one edge `(row - 1, stoi t)` per non-final token `t`. -/
theorem loadFromTxt_go_edges :
    ∀ (ls : List (List String)) (r : Nat) (d : Nat × TxtGraphData), d.1 = r → 1 ≤ r →
      ((ls.foldl
        (fun (st : Nat × TxtGraphData) (tokens : List String) =>
          let currentRow := st.1
          let dd := st.2
          if currentRow = 0 then
            (1, { dd with totalVertices := stoi (tokens.headD "") })
          else
            (currentRow + 1,
              { dd with
                  labels := dd.labels ++ [(tokens.getLast?).getD ""],
                  edgeVector := dd.edgeVector ++
                    tokens.dropLast.map (fun t => (currentRow - 1, stoi t)) })) d).2).edgeVector =
      d.2.edgeVector ++
        (List.enumFrom r ls).flatMap
          (fun p => p.2.dropLast.map (fun t => (p.1 - 1, stoi t))) := by
  intro ls
  induction ls with
  | nil => intro r d _ _; simp [List.enumFrom]
  | cons tokens ls ih =>
    intro r d hd hr
    rw [List.enumFrom_cons, List.flatMap_cons, List.foldl_cons]
    have hne : d.1 ≠ 0 := by omega
    simp only [hne, if_neg, ite_false]
    rw [ih (r + 1) _ (by simp [hd]) (by omega)]
    simp only [hd]
    rw [List.append_assoc]

/-- C8 amended: the neighbor ids on a vertex line are recorded *as-is* (no
`- 1` rebase): for the input line at 1-based row `i + 1` (vertex `i`), every
token `t` before the final label token yields the internal edge
`(i, stoi t)`. -/
theorem C8_txt_edges (header : List String) (rest : List (List String)) :
    (loadFromTxt (header :: rest)).edgeVector =
      (List.enumFrom 1 rest).flatMap
        (fun p => p.2.dropLast.map (fun t => (p.1 - 1, stoi t))) := by
  unfold loadFromTxt
  rw [List.foldl_cons]
  rw [loadFromTxt_go_edges rest 1 _ rfl (le_refl 1)]
  exact List.nil_append _

/-- C8 counterexample: the wire line for vertex 1 (1-based) lists neighbor
token "2"; the claim says the loader records the rebased edge `(0, 1)`, but it
records `(0, 2)` — the token is used unrebased. -/
theorem C8_counterexample :
    (loadFromTxt [["2"], ["2", "A"], ["T"]]).edgeVector = [(0, 2)] ∧
    (0, 1) ∉ (loadFromTxt [["2"], ["2", "A"], ["T"]]).edgeVector := by
  constructor
  · rfl
  · decide

theorem vecBestUpd_score (cells : Nat → Nat → Int) (b : VecBest) (rc : Nat × Nat) :
    (vecBestUpd cells b rc).score = max (cells rc.1 rc.2) b.score := by
  show (if cells rc.1 rc.2 = max (cells rc.1 rc.2) b.score then
      (⟨max (cells rc.1 rc.2) b.score, rc.1, rc.2⟩ : VecBest)
    else ⟨max (cells rc.1 rc.2) b.score, b.row, b.col⟩).score =
      max (cells rc.1 rc.2) b.score
  split <;> rfl

theorem vecBestUpd_of_eq (cells : Nat → Nat → Int) (b : VecBest) (rc : Nat × Nat)
    (h : cells rc.1 rc.2 = (vecBestUpd cells b rc).score) :
    vecBestUpd cells b rc = ⟨max (cells rc.1 rc.2) b.score, rc.1, rc.2⟩ := by
  rw [vecBestUpd_score] at h
  unfold vecBestUpd
  rw [if_pos h]

theorem vecBestUpd_of_ne (cells : Nat → Nat → Int) (b : VecBest) (rc : Nat × Nat)
    (h : ¬cells rc.1 rc.2 = (vecBestUpd cells b rc).score) :
    (vecBestUpd cells b rc).score = b.score ∧
    (vecBestUpd cells b rc).row = b.row ∧ (vecBestUpd cells b rc).col = b.col := by
  rw [vecBestUpd_score] at h ⊢
  refine ⟨?_, ?_, ?_⟩
  · rcases max_choice (cells rc.1 rc.2) b.score with hmc | hmc
    · exact absurd hmc.symm h
    · exact hmc
  · unfold vecBestUpd
    rw [if_neg h]
  · unfold vecBestUpd
    rw [if_neg h]

/-- The vectorized tracker's characterization: the final score is the max of
`0` and all scanned cells, and the final endpoint is the *last* scan entry
whose cell attains that score (the initial `(0, 0)` if none does). -/
theorem foldl_vecBestUpd_spec (cells : Nat → Nat → Int) (L : List (Nat × Nat)) :
    (L.foldl (vecBestUpd cells) ⟨0, 0, 0⟩).score =
        L.foldl (fun s rc => max s (cells rc.1 rc.2)) 0 ∧
      ((L.filter (fun rc => decide (cells rc.1 rc.2 =
            (L.foldl (vecBestUpd cells) ⟨0, 0, 0⟩).score))).getLast? =
          some ((L.foldl (vecBestUpd cells) ⟨0, 0, 0⟩).row,
            (L.foldl (vecBestUpd cells) ⟨0, 0, 0⟩).col) ∨
        ((L.filter (fun rc => decide (cells rc.1 rc.2 =
            (L.foldl (vecBestUpd cells) ⟨0, 0, 0⟩).score))) = [] ∧
          (L.foldl (vecBestUpd cells) ⟨0, 0, 0⟩).row = 0 ∧
          (L.foldl (vecBestUpd cells) ⟨0, 0, 0⟩).col = 0)) := by
  induction L using List.reverseRecOn with
  | nil => exact ⟨rfl, Or.inr ⟨rfl, rfl, rfl⟩⟩
  | append_singleton l x ih =>
    obtain ⟨ihs, ihe⟩ := ih
    have hfc : (l ++ [x]).foldl (vecBestUpd cells) ⟨0, 0, 0⟩ =
        vecBestUpd cells (l.foldl (vecBestUpd cells) ⟨0, 0, 0⟩) x :=
      List.foldl_concat _ _ x l
    constructor
    · rw [hfc, vecBestUpd_score, List.foldl_concat, ihs, max_comm]
    · by_cases hx : cells x.1 x.2 =
          ((l ++ [x]).foldl (vecBestUpd cells) ⟨0, 0, 0⟩).score
      · left
        have hres : (l ++ [x]).foldl (vecBestUpd cells) ⟨0, 0, 0⟩ =
            ⟨max (cells x.1 x.2) (l.foldl (vecBestUpd cells) ⟨0, 0, 0⟩).score,
              x.1, x.2⟩ := by
          rw [hfc]
          exact vecBestUpd_of_eq cells _ x (by rw [← hfc]; exact hx)
        rw [List.filter_append]
        have hpx : (decide (cells x.1 x.2 =
            ((l ++ [x]).foldl (vecBestUpd cells) ⟨0, 0, 0⟩).score)) = true :=
          decide_eq_true hx
        have hfx : List.filter (fun rc => decide (cells rc.1 rc.2 =
            ((l ++ [x]).foldl (vecBestUpd cells) ⟨0, 0, 0⟩).score)) [x] = [x] := by
          simp only [List.filter, hpx]
        rw [hfx, List.getLast?_concat, hres]
      · have hne := vecBestUpd_of_ne cells (l.foldl (vecBestUpd cells) ⟨0, 0, 0⟩) x
          (by rw [← hfc]; exact hx)
        have hscore : ((l ++ [x]).foldl (vecBestUpd cells) ⟨0, 0, 0⟩).score =
            (l.foldl (vecBestUpd cells) ⟨0, 0, 0⟩).score := by
          rw [hfc]; exact hne.1
        have hrow : ((l ++ [x]).foldl (vecBestUpd cells) ⟨0, 0, 0⟩).row =
            (l.foldl (vecBestUpd cells) ⟨0, 0, 0⟩).row := by
          rw [hfc]; exact hne.2.1
        have hcol : ((l ++ [x]).foldl (vecBestUpd cells) ⟨0, 0, 0⟩).col =
            (l.foldl (vecBestUpd cells) ⟨0, 0, 0⟩).col := by
          rw [hfc]; exact hne.2.2
        have hfilter : List.filter (fun rc => decide (cells rc.1 rc.2 =
              ((l ++ [x]).foldl (vecBestUpd cells) ⟨0, 0, 0⟩).score)) (l ++ [x]) =
            List.filter (fun rc => decide (cells rc.1 rc.2 =
              (l.foldl (vecBestUpd cells) ⟨0, 0, 0⟩).score)) l := by
          rw [List.filter_append]
          have hpx : (decide (cells x.1 x.2 =
              ((l ++ [x]).foldl (vecBestUpd cells) ⟨0, 0, 0⟩).score)) = false :=
            decide_eq_false hx
          have hfx : List.filter (fun rc => decide (cells rc.1 rc.2 =
              ((l ++ [x]).foldl (vecBestUpd cells) ⟨0, 0, 0⟩).score)) [x] = [] := by
            simp only [List.filter, hpx]
          rw [hfx, List.append_nil]
          simp only [hscore]
        rw [hfilter, hrow, hcol]
        exact ihe

theorem bestUpd_of_lt (cells : Nat → Nat → Int) (b : BestScoreInfo) (ij : Nat × Nat)
    (h : b.score < cells ij.1 ij.2) :
    bestUpd cells b ij = ⟨cells ij.1 ij.2, ij.2, ij.2, ij.1⟩ := by
  unfold bestUpd
  rw [if_pos h]

theorem bestUpd_of_ge (cells : Nat → Nat → Int) (b : BestScoreInfo) (ij : Nat × Nat)
    (h : ¬b.score < cells ij.1 ij.2) :
    bestUpd cells b ij = b := by
  unfold bestUpd
  rw [if_neg h]

/-- The scalar tracker's characterization: if no cell beats the zero
initialization the record stays initial; otherwise (strict-improvement
updates) the endpoint is the *first* scan entry attaining the final score. -/
theorem foldl_bestUpd_find (cells : Nat → Nat → Int) (L : List (Nat × Nat)) :
    ((L.foldl (bestUpd cells) ⟨0, 0, 0, 0⟩).score = 0 ∧
        L.foldl (bestUpd cells) ⟨0, 0, 0, 0⟩ = ⟨0, 0, 0, 0⟩) ∨
      (0 < (L.foldl (bestUpd cells) ⟨0, 0, 0, 0⟩).score ∧
        L.find? (fun rc => decide (cells rc.1 rc.2 =
            (L.foldl (bestUpd cells) ⟨0, 0, 0, 0⟩).score)) =
          some ((L.foldl (bestUpd cells) ⟨0, 0, 0, 0⟩).qryRow,
            (L.foldl (bestUpd cells) ⟨0, 0, 0, 0⟩).refColumn)) := by
  induction L using List.reverseRecOn with
  | nil => exact Or.inl ⟨rfl, rfl⟩
  | append_singleton l x ih =>
    have hfc : (l ++ [x]).foldl (bestUpd cells) ⟨0, 0, 0, 0⟩ =
        bestUpd cells (l.foldl (bestUpd cells) ⟨0, 0, 0, 0⟩) x :=
      List.foldl_concat _ _ x l
    by_cases hlt : (l.foldl (bestUpd cells) ⟨0, 0, 0, 0⟩).score < cells x.1 x.2
    · right
      have hres : (l ++ [x]).foldl (bestUpd cells) ⟨0, 0, 0, 0⟩ =
          ⟨cells x.1 x.2, x.2, x.2, x.1⟩ := by
        rw [hfc]
        exact bestUpd_of_lt _ _ _ hlt
      have hnonneg : 0 ≤ (l.foldl (bestUpd cells) ⟨0, 0, 0, 0⟩).score := by
        rw [foldl_bestUpd_score]
        exact le_foldl_max_init _ _ _
      refine ⟨?_, ?_⟩
      · rw [hres]
        dsimp only
        omega
      · rw [List.find?_append]
        have hnone : l.find? (fun rc => decide (cells rc.1 rc.2 =
            ((l ++ [x]).foldl (bestUpd cells) ⟨0, 0, 0, 0⟩).score)) = none := by
          rw [List.find?_eq_none]
          intro y hy
          have hyle : cells y.1 y.2 ≤ (l.foldl (bestUpd cells) ⟨0, 0, 0, 0⟩).score := by
            rw [foldl_bestUpd_score]
            exact le_foldl_max_mem _ _ _ y hy
          simp only [decide_eq_true_eq]
          rw [hres]
          dsimp only
          omega
        rw [hnone]
        have hpx : (decide (cells x.1 x.2 =
            ((l ++ [x]).foldl (bestUpd cells) ⟨0, 0, 0, 0⟩).score)) = true := by
          rw [hres]
          simp
        have hfind1 : List.find? (fun rc => decide (cells rc.1 rc.2 =
            ((l ++ [x]).foldl (bestUpd cells) ⟨0, 0, 0, 0⟩).score)) [x] = some x := by
          simp only [List.find?, hpx]
        rw [hfind1, hres]
        rfl
    · have hres : (l ++ [x]).foldl (bestUpd cells) ⟨0, 0, 0, 0⟩ =
          l.foldl (bestUpd cells) ⟨0, 0, 0, 0⟩ := by
        rw [hfc]
        exact bestUpd_of_ge _ _ _ hlt
      rcases ih with ⟨hz, hinit⟩ | ⟨hpos, hfind⟩
      · left
        rw [hres]
        exact ⟨hz, hinit⟩
      · right
        rw [hres]
        refine ⟨hpos, ?_⟩
        rw [List.find?_append, hfind]
        rfl

/-- C6 counterexample: on the one-vertex graph 'A' with read "AA" the cells
(0,0) and (1,0) both score 1, the scan visits (1,0) last, yet the scalar
kernel (strict `<` update, align.hpp line 380) reports the endpoint
`qryRow = 0`, not the claimed latest tying cell at row 1. -/
theorem C6_counterexample :
    alignToDAGLocal_Phase1_Score scoreUnit gA1 ['A', 'A'] = ⟨1, 0, 0, 0⟩ ∧
    cellAt (phase1Matrix scoreUnit gA1 ['A', 'A']) 1 0 =
      (alignToDAGLocal_Phase1_Score scoreUnit gA1 ['A', 'A']).score ∧
    (alignToDAGLocal_Phase1_Score scoreUnit gA1 ['A', 'A']).qryRow ≠ 1 := by
  refine ⟨by decide, by decide, by decide⟩

/-- C6 amended: the tie policies of the two Phase 1 kernels differ.  The
*vectorized* tracker compares each cell against the already-updated running
maximum, so ties overwrite and the reported endpoint is the last cell of its
block scan attaining the final best (initial `(0,0)` if none).  The *scalar*
kernel updates only on strict improvement, so its reported endpoint is the
*first* cell of its row-major scan attaining the final best (the record stays
initial when the best is 0). -/
theorem C6_tie_policy (sc : Scores) (g : Graph) (read chars : List Char) :
    (((vecScan g.numVertices chars.length).filter (fun rc =>
          decide (cellAt (vecMatrixF sc g chars) rc.1 rc.2 =
            (vecLaneBestF sc g chars).score))).getLast? =
        some ((vecLaneBestF sc g chars).row, (vecLaneBestF sc g chars).col) ∨
      (((vecScan g.numVertices chars.length).filter (fun rc =>
          decide (cellAt (vecMatrixF sc g chars) rc.1 rc.2 =
            (vecLaneBestF sc g chars).score))) = [] ∧
        (vecLaneBestF sc g chars).row = 0 ∧ (vecLaneBestF sc g chars).col = 0)) ∧
    (((alignToDAGLocal_Phase1_Score sc g read).score = 0 ∧
        alignToDAGLocal_Phase1_Score sc g read = ⟨0, 0, 0, 0⟩) ∨
      (0 < (alignToDAGLocal_Phase1_Score sc g read).score ∧
        (phase1ScanF read.length g.numVertices).find? (fun rc =>
            decide (cellAt (phase1Matrix sc g read) rc.1 rc.2 =
              (alignToDAGLocal_Phase1_Score sc g read).score)) =
          some ((alignToDAGLocal_Phase1_Score sc g read).qryRow,
            (alignToDAGLocal_Phase1_Score sc g read).refColumn))) :=
  ⟨(foldl_vecBestUpd_spec (cellAt (vecMatrixF sc g chars))
      (vecScan g.numVertices chars.length)).2,
    foldl_bestUpd_find (cellAt (phase1Matrix sc g read))
      (phase1ScanF read.length g.numVertices)⟩

set_option maxRecDepth 100000 in
/-- C2 evaluated at the failing input: the read "T" against the one-vertex
graph 'A', alone versus batched with a 17-character read.  With the
spec-modelled non-negative scores (1,1,1,1) the vectorized kernel *adds* the
`ins` penalty (`SIMD::add` with `ins512`), so every padding row increases the
running score: alone (16 padded rows) the lane reports best 16 at row 15,
inside the batch (32 padded rows) best 32 at row 31 — the score and end row
depend on the batch, refuting batch invariance. -/
theorem C2_batch_dependence :
    phase1VecLane scoreUnit gA1 [List.replicate 17 'T', ['T']] 1 = ⟨32, 31, 0⟩ ∧
    phase1VecLane scoreUnit gA1 [['T']] 0 = ⟨16, 15, 0⟩ ∧
    (phase1VecLane scoreUnit gA1 [List.replicate 17 'T', ['T']] 1).score ≠
      (phase1VecLane scoreUnit gA1 [['T']] 0).score := by
  refine ⟨by decide, by decide, by decide⟩

set_option maxRecDepth 100000 in
/-- C3 evaluated at the failing input: read "A" against the one-vertex graph
'A', scores (1,1,1,1), 32-bit lanes.  The forward kernel reports best 16 at
`qryRowEnd = 15` (padding rows inflate the score via the added `ins`
penalty); the reverse boost row `len - 1 - qryRowEnd` underflows to `-15` in
lane arithmetic, so the boost cell never matches and the reverse best equals
the forward best (16, not 17) — the wrapper assertion
`score == storeScores[j] - 1` (line 736) fails. -/
theorem C3_assert_fails :
    phase1VecLane scoreUnit gA1 [['A']] 0 = ⟨16, 15, 0⟩ ∧
    revBoostRow 1 15 = -15 ∧
    (vecRevBest scoreUnit gA1 (revBoostRow 1 15) 0
        (soaLaneChars [['A']] 0 (padLen 1))).score = 16 ∧
    ¬((phase1VecLane scoreUnit gA1 [['A']] 0).score =
        (vecRevBest scoreUnit gA1 (revBoostRow 1 15) 0
          (soaLaneChars [['A']] 0 (padLen 1))).score - 1) := by
  refine ⟨by decide, by decide, by decide, by decide⟩

/-- The generic cell equation: under the dependency order invariant the
computed cell agrees with the recurrence's maximum. -/
theorem dpMatrix_cell_eq (sc : Scores) (P : ColRef) (read : List Char) (hP : P.depsLt)
    {r c : Nat} (hr : r < read.length) (hc : c < P.width) :
    cellAt (dpMatrix sc P read) r c = dpCellSpec sc P read r c := by
  obtain ⟨prevRow, hrow, hprevAt⟩ : ∃ pr : List Int,
      (dpMatrix sc P read).getD r [] = dpRow sc P (read.getD r '?') pr ∧
      ∀ p, pr.getD p 0 =
        (if r = 0 then (0 : Int) else cellAt (dpMatrix sc P read) (r - 1) p) := by
    cases r with
    | zero =>
      refine ⟨List.replicate P.width 0, ?_, ?_⟩
      · exact dpRows_getD_zero sc P read _ hr
      · intro p; simp [getD_replicate_zero]
    | succ r' =>
      refine ⟨(dpMatrix sc P read).getD r' [], ?_, ?_⟩
      · exact dpRows_getD_succ sc P read _ r' hr
      · intro p; simp [cellAt]
  have hcell : cellAt (dpMatrix sc P read) r c =
      dpCellVal sc P (read.getD r '?') prevRow (dpRow sc P (read.getD r '?') prevRow) c := by
    rw [cellAt, hrow]
    exact dpRow_getD sc P (read.getD r '?') prevRow hP hc
  have hcur : ∀ p, (dpRow sc P (read.getD r '?') prevRow).getD p 0 =
      cellAt (dpMatrix sc P read) r p := by
    intro p
    rw [cellAt, hrow]
  rw [hcell]
  unfold dpCellVal dpCellSpec
  simp only
  set m := dpMatrix sc P read with hm
  set sub := matchScore sc (read.getD r '?') (P.charAt c) with hsub
  set prevAt : Nat → Int := fun p => if r = 0 then 0 else cellAt m (r - 1) p with hprevAtDef
  have hpA : ∀ p, prevRow.getD p 0 = prevAt p := hprevAt
  set L : List Int :=
      ([sub] ++ ((P.depsAt c).map fun p => prevAt p + sub)
        ++ ((P.depsAt c).map fun p => cellAt m r p - (sc.delS : Int))
        ++ [prevAt c - (sc.insS : Int)]) with hL
  have hsubL : sub ∈ L := by
    rw [hL]; simp
  have hinsL : prevAt c - (sc.insS : Int) ∈ L := by
    rw [hL]; simp
  have hAL : ∀ p ∈ P.depsAt c, prevAt p + sub ∈ L := by
    intro p hp
    rw [hL]
    simp only [List.mem_append, List.mem_singleton, List.mem_map]
    exact Or.inl (Or.inl (Or.inr ⟨p, hp, rfl⟩))
  have hBL : ∀ p ∈ P.depsAt c, cellAt m r p - (sc.delS : Int) ∈ L := by
    intro p hp
    rw [hL]
    simp only [List.mem_append, List.mem_singleton, List.mem_map]
    exact Or.inl (Or.inr ⟨p, hp, rfl⟩)
  have hRnonneg : (0 : Int) ≤ L.foldr max 0 := le_foldr_max_base L 0
  apply le_antisymm
  · apply max_le
    · apply max_le
      · rw [hpA c]
        exact le_foldr_max_mem L 0 _ hinsL
      · apply foldl_max_le
        · exact le_foldr_max_mem L 0 _ hsubL
        · intro p hp
          rw [hpA p]
          exact le_foldr_max_mem L 0 _ (hAL p hp)
    · apply max_le
      · apply foldl_max_le
        · exact le_trans (by norm_num) hRnonneg
        · intro p hp
          rw [hcur p]
          exact le_foldr_max_mem L 0 _ (hBL p hp)
      · exact hRnonneg
  · apply foldr_max_le
    · exact le_trans (le_max_right _ 0) (le_max_right _ _)
    · intro x hx
      rw [hL] at hx
      simp only [List.mem_append, List.mem_singleton, List.mem_map] at hx
      rcases hx with ((hx | ⟨p, hp, hpx⟩) | ⟨p, hp, hpx⟩) | hx
      · subst hx
        refine le_trans ?_ (le_max_left _ _)
        refine le_trans ?_ (le_max_right _ _)
        exact le_foldl_max_init _ _ _
      · subst hpx
        refine le_trans ?_ (le_max_left _ _)
        refine le_trans ?_ (le_max_right _ _)
        rw [← hpA p]
        exact le_foldl_max_mem _ _ _ p hp
      · subst hpx
        refine le_trans ?_ (le_max_right _ _)
        refine le_trans ?_ (le_max_left _ _)
        rw [← hcur p]
        exact le_foldl_max_mem _ _ _ p hp
      · subst hx
        refine le_trans ?_ (le_max_left _ _)
        refine le_trans ?_ (le_max_left _ _)
        rw [← hpA c]

/-- Branch inequalities of the recurrence, read off the cell equation. -/
theorem dpMatrix_cell_ge_sub (sc : Scores) (P : ColRef) (read : List Char)
    (hP : P.depsLt) {r c : Nat} (hr : r < read.length) (hc : c < P.width) :
    matchScore sc (read.getD r '?') (P.charAt c) ≤ cellAt (dpMatrix sc P read) r c := by
  rw [dpMatrix_cell_eq sc P read hP hr hc]
  unfold dpCellSpec
  apply le_foldr_max_mem
  simp

theorem dpMatrix_cell_ge_subst_step (sc : Scores) (P : ColRef) (read : List Char)
    (hP : P.depsLt) {r c p : Nat} (hr : r + 1 < read.length) (hc : c < P.width)
    (hp : p ∈ P.depsAt c) :
    cellAt (dpMatrix sc P read) r p + matchScore sc (read.getD (r + 1) '?') (P.charAt c) ≤
      cellAt (dpMatrix sc P read) (r + 1) c := by
  rw [dpMatrix_cell_eq sc P read hP hr hc]
  unfold dpCellSpec
  apply le_foldr_max_mem
  simp only [List.mem_append, List.mem_singleton, List.mem_map]
  refine Or.inl (Or.inl (Or.inr ⟨p, hp, ?_⟩))
  simp

theorem dpMatrix_cell_ge_del_step (sc : Scores) (P : ColRef) (read : List Char)
    (hP : P.depsLt) {r c p : Nat} (hr : r < read.length) (hc : c < P.width)
    (hp : p ∈ P.depsAt c) :
    cellAt (dpMatrix sc P read) r p - (sc.delS : Int) ≤ cellAt (dpMatrix sc P read) r c := by
  rw [dpMatrix_cell_eq sc P read hP hr hc]
  unfold dpCellSpec
  apply le_foldr_max_mem
  simp only [List.mem_append, List.mem_singleton, List.mem_map]
  exact Or.inl (Or.inr ⟨p, hp, rfl⟩)

theorem dpMatrix_cell_ge_ins_step (sc : Scores) (P : ColRef) (read : List Char)
    (hP : P.depsLt) {r c : Nat} (hr : r + 1 < read.length) (hc : c < P.width) :
    cellAt (dpMatrix sc P read) r c - (sc.insS : Int) ≤
      cellAt (dpMatrix sc P read) (r + 1) c := by
  rw [dpMatrix_cell_eq sc P read hP hr hc]
  unfold dpCellSpec
  apply le_foldr_max_mem
  simp

/-- Every derivation's score is at most the DP cell at its endpoint. -/
theorem achCol_score_le (sc : Scores) (P : ColRef) (read : List Char) (hP : P.depsLt)
    {c0 r c M X D I : Nat} (h : AchCol sc P read c0 r c M X D I) :
    r < read.length → c < P.width →
      achScore sc M X D I ≤ cellAt (dpMatrix sc P read) r c := by
  induction h with
  | start r c =>
    intro hr hc
    have hsub := dpMatrix_cell_ge_sub sc P read hP hr hc
    by_cases hch : P.charAt c = read.getD r '?'
    · rw [if_pos hch, if_pos hch]
      rw [matchScore, if_pos hch] at hsub
      unfold achScore
      push_cast
      linarith
    · rw [if_neg hch, if_neg hch]
      rw [matchScore, if_neg hch] at hsub
      unfold achScore
      push_cast
      linarith
  | subst c hp hprev ih =>
    next c0 r p M X D I =>
    intro hr hc
    have hpw : p < P.width := lt_trans (hP c p hp) hc
    have hle := ih (by omega) hpw
    have hstep := dpMatrix_cell_ge_subst_step sc P read hP hr hc hp
    by_cases hch : P.charAt c = read.getD (r + 1) '?'
    · rw [if_pos hch, if_pos hch]
      rw [matchScore, if_pos hch] at hstep
      unfold achScore at hle ⊢
      push_cast
      linarith
    · rw [if_neg hch, if_neg hch]
      rw [matchScore, if_neg hch] at hstep
      unfold achScore at hle ⊢
      push_cast
      linarith
  | del c hp hprev ih =>
    next c0 r p M X D I =>
    intro hr hc
    have hpw : p < P.width := lt_trans (hP c p hp) hc
    have hle := ih hr hpw
    have hstep := dpMatrix_cell_ge_del_step sc P read hP hr hc hp
    unfold achScore at hle ⊢
    push_cast
    linarith
  | ins hprev ih =>
    next c0 r c M X D I =>
    intro hr hc
    have hle := ih (by omega) hc
    have hstep := dpMatrix_cell_ge_ins_step sc P read hP hr hc
    unfold achScore at hle ⊢
    push_cast
    linarith

/-- Row/operation accounting: the query-consuming operations of a derivation
fit in rows `0..r`, and a derivation contains at least one substitution. -/
theorem achCol_counts (sc : Scores) (P : ColRef) (read : List Char)
    {c0 r c M X D I : Nat} (h : AchCol sc P read c0 r c M X D I) :
    M + X + I ≤ r + 1 ∧ 1 ≤ M + X := by
  induction h with
  | start r c => constructor <;> split <;> omega
  | subst c hp hprev ih => constructor <;> (rcases ih with ⟨h1, h2⟩; split <;> omega)
  | del c hp hprev ih => exact ⟨ih.1, ih.2⟩
  | ins hprev ih => exact ⟨by omega, ih.2⟩

/-- The start column never exceeds the end column (dependencies precede). -/
theorem achCol_c0_le (sc : Scores) (P : ColRef) (read : List Char) (hP : P.depsLt)
    {c0 r c M X D I : Nat} (h : AchCol sc P read c0 r c M X D I) : c0 ≤ c := by
  induction h with
  | start r c => exact le_refl c
  | subst c hp hprev ih => exact le_trans ih (le_of_lt (hP c _ hp))
  | del c hp hprev ih => exact le_trans ih (le_of_lt (hP c _ hp))
  | ins hprev ih => exact ih

theorem foldr_max_attained :
    ∀ (l : List Int) (b : Int), l.foldr max b = b ∨ ∃ x ∈ l, l.foldr max b = x := by
  intro l
  induction l with
  | nil => intro b; exact Or.inl rfl
  | cons y ys ih =>
    intro b
    rcases max_choice y (ys.foldr max b) with h | h
    · exact Or.inr ⟨y, List.mem_cons_self y ys, h⟩
    · rcases ih b with h2 | ⟨x, hx, h2⟩
      · left
        show max y (ys.foldr max b) = b
        rw [h, h2]
      · right
        exact ⟨x, List.mem_cons_of_mem y hx, by rw [← h2]; exact h⟩

theorem achScore_start (sc : Scores) (q : Prop) [Decidable q] :
    achScore sc (if q then 1 else 0) (if q then 0 else 1) 0 0 =
      (if q then (sc.matchS : Int) else -(sc.mismatchS : Int)) := by
  by_cases h : q
  · rw [if_pos h, if_pos h, if_pos h]
    unfold achScore
    push_cast
    ring
  · rw [if_neg h, if_neg h, if_neg h]
    unfold achScore
    push_cast
    ring

theorem achScore_del (sc : Scores) (M X D I : Nat) :
    achScore sc M X (D + 1) I = achScore sc M X D I - (sc.delS : Int) := by
  unfold achScore
  push_cast
  ring

theorem achScore_ins (sc : Scores) (M X D I : Nat) :
    achScore sc M X D (I + 1) = achScore sc M X D I - (sc.insS : Int) := by
  unfold achScore
  push_cast
  ring

theorem achScore_subst (sc : Scores) (M X D I : Nat) (q : Prop) [Decidable q] :
    achScore sc (M + (if q then 1 else 0)) (X + (if q then 0 else 1)) D I =
      achScore sc M X D I + (if q then (sc.matchS : Int) else -(sc.mismatchS : Int)) := by
  by_cases h : q
  · rw [if_pos h, if_pos h, if_pos h]
    unfold achScore
    push_cast
    ring
  · rw [if_neg h, if_neg h, if_neg h]
    unfold achScore
    push_cast
    ring

/-- Every DP cell is `0` or attained by a derivation ending there. -/
theorem dpMatrix_cell_attained (sc : Scores) (P : ColRef) (read : List Char)
    (hP : P.depsLt) :
    ∀ r, r < read.length → ∀ c, c < P.width →
      (cellAt (dpMatrix sc P read) r c = 0 ∨
        ∃ c0 M X D I, AchCol sc P read c0 r c M X D I ∧
          achScore sc M X D I = cellAt (dpMatrix sc P read) r c) := by
  have hdel : (0 : Int) ≤ (sc.delS : Int) := Int.ofNat_nonneg _
  have hins : (0 : Int) ≤ (sc.insS : Int) := Int.ofNat_nonneg _
  have hstart : ∀ r c, r < read.length → c < P.width →
      ∃ c0 M X D I, AchCol sc P read c0 r c M X D I ∧
        achScore sc M X D I = matchScore sc (read.getD r '?') (P.charAt c) := by
    intro r c _ _
    refine ⟨c, _, _, 0, 0, AchCol.start r c, ?_⟩
    rw [achScore_start sc (P.charAt c = read.getD r '?')]
    rfl
  intro r
  induction r with
  | zero =>
    intro hr c
    induction c using Nat.strong_induction_on with
    | _ c ihc =>
      intro hc
      have hcell : cellAt (dpMatrix sc P read) 0 c =
          List.foldr max 0
            ([matchScore sc (read.getD 0 '?') (P.charAt c)]
              ++ ((P.depsAt c).map fun _ =>
                    (0 : Int) + matchScore sc (read.getD 0 '?') (P.charAt c))
              ++ ((P.depsAt c).map fun p =>
                    cellAt (dpMatrix sc P read) 0 p - (sc.delS : Int))
              ++ [(0 : Int) - (sc.insS : Int)]) :=
        dpMatrix_cell_eq sc P read hP hr hc
      rcases foldr_max_attained
          ([matchScore sc (read.getD 0 '?') (P.charAt c)]
            ++ ((P.depsAt c).map fun _ =>
                  (0 : Int) + matchScore sc (read.getD 0 '?') (P.charAt c))
            ++ ((P.depsAt c).map fun p =>
                  cellAt (dpMatrix sc P read) 0 p - (sc.delS : Int))
            ++ [(0 : Int) - (sc.insS : Int)]) 0 with h0 | hex
      · left
        rw [hcell, h0]
      · obtain ⟨x, hx, hfx⟩ := hex
        have hval : cellAt (dpMatrix sc P read) 0 c = x := by rw [hcell, hfx]
        have hnn : (0 : Int) ≤ cellAt (dpMatrix sc P read) 0 c :=
          dpMatrix_cell_nonneg sc P read 0 c
        simp only [List.mem_append, List.mem_singleton, List.mem_map] at hx
        rcases hx with ((hx | ⟨p, hp, hpx⟩) | ⟨p, hp, hpx⟩) | hx
        · -- x = sub: a fresh single-cell alignment
          right
          rcases hstart 0 c hr hc with ⟨c0, M, X, D, I, hach, hsc⟩
          refine ⟨c0, M, X, D, I, hach, ?_⟩
          rw [hsc, hval, ← hx]
        · -- x = 0 + sub (row 0 substitution step): same value as a fresh start
          right
          rcases hstart 0 c hr hc with ⟨c0, M, X, D, I, hach, hsc⟩
          refine ⟨c0, M, X, D, I, hach, ?_⟩
          rw [hsc, hval, ← hpx]
          ring
        · -- x = cell(0, p) - del
          have hpc : p < c := hP c p hp
          rcases ihc p hpc (lt_trans hpc hc) with hz | ⟨c0, M, X, D, I, hach, hsc⟩
          · left
            rw [hz] at hpx
            rw [hval]
            omega
          · right
            refine ⟨c0, M, X, D + 1, I, AchCol.del c hp hach, ?_⟩
            rw [achScore_del, hsc, hval, ← hpx]
        · -- x = 0 - ins: nonpositive, so the cell is 0
          left
          rw [hval]
          omega
  | succ r' ihr =>
    intro hr c
    induction c using Nat.strong_induction_on with
    | _ c ihc =>
      intro hc
      have hr' : r' < read.length := by omega
      have hcell : cellAt (dpMatrix sc P read) (r' + 1) c =
          List.foldr max 0
            ([matchScore sc (read.getD (r' + 1) '?') (P.charAt c)]
              ++ ((P.depsAt c).map fun p =>
                    cellAt (dpMatrix sc P read) r' p +
                      matchScore sc (read.getD (r' + 1) '?') (P.charAt c))
              ++ ((P.depsAt c).map fun p =>
                    cellAt (dpMatrix sc P read) (r' + 1) p - (sc.delS : Int))
              ++ [cellAt (dpMatrix sc P read) r' c - (sc.insS : Int)]) :=
        dpMatrix_cell_eq sc P read hP hr hc
      rcases foldr_max_attained
          ([matchScore sc (read.getD (r' + 1) '?') (P.charAt c)]
            ++ ((P.depsAt c).map fun p =>
                  cellAt (dpMatrix sc P read) r' p +
                    matchScore sc (read.getD (r' + 1) '?') (P.charAt c))
            ++ ((P.depsAt c).map fun p =>
                  cellAt (dpMatrix sc P read) (r' + 1) p - (sc.delS : Int))
            ++ [cellAt (dpMatrix sc P read) r' c - (sc.insS : Int)]) 0 with h0 | hex
      · left
        rw [hcell, h0]
      · obtain ⟨x, hx, hfx⟩ := hex
        have hval : cellAt (dpMatrix sc P read) (r' + 1) c = x := by rw [hcell, hfx]
        have hnn : (0 : Int) ≤ cellAt (dpMatrix sc P read) (r' + 1) c :=
          dpMatrix_cell_nonneg sc P read (r' + 1) c
        simp only [List.mem_append, List.mem_singleton, List.mem_map] at hx
        rcases hx with ((hx | ⟨p, hp, hpx⟩) | ⟨p, hp, hpx⟩) | hx
        · -- x = sub
          right
          rcases hstart (r' + 1) c hr hc with ⟨c0, M, X, D, I, hach, hsc⟩
          refine ⟨c0, M, X, D, I, hach, ?_⟩
          rw [hsc, hval, ← hx]
        · -- x = cell(r', p) + sub
          have hpc : p < c := hP c p hp
          have hpw : p < P.width := lt_trans hpc hc
          rcases ihr hr' p hpw with hz | ⟨c0, M, X, D, I, hach, hsc⟩
          · -- previous cell is 0: same value as a fresh start
            right
            rcases hstart (r' + 1) c hr hc with ⟨c0, M, X, D, I, hach, hsc⟩
            refine ⟨c0, M, X, D, I, hach, ?_⟩
            rw [hsc, hval, ← hpx, hz]
            ring
          · right
            refine ⟨c0, _, _, D, I, AchCol.subst c hp hach, ?_⟩
            rw [achScore_subst sc M X D I (P.charAt c = read.getD (r' + 1) '?'),
              hsc, hval, ← hpx]
            rfl
        · -- x = cell(r'+1, p) - del
          have hpc : p < c := hP c p hp
          rcases ihc p hpc (lt_trans hpc hc) with hz | ⟨c0, M, X, D, I, hach, hsc⟩
          · left
            rw [hz] at hpx
            rw [hval]
            omega
          · right
            refine ⟨c0, M, X, D + 1, I, AchCol.del c hp hach, ?_⟩
            rw [achScore_del, hsc, hval, ← hpx]
        · -- x = cell(r', c) - ins
          rcases ihr hr' c hc with hz | ⟨c0, M, X, D, I, hach, hsc⟩
          · left
            rw [hval]
            rw [hz] at hx
            omega
          · right
            refine ⟨c0, M, X, D, I + 1, AchCol.ins hach, ?_⟩
            rw [achScore_ins, hsc, hval, ← hx]

theorem reachList_self (g : Graph) : ∀ d v, v ∈ reachList g d v := by
  intro d v
  cases d with
  | zero => exact List.mem_singleton.mpr rfl
  | succ d => exact List.mem_cons_self _ _

/-- Every derivation's start column is backward-reachable from its end column
within its edge count (`M + X + D - 1`). -/
theorem achCol_full_reachable (sc : Scores) (g : Graph) (read : List Char)
    {c0 r c M X D I : Nat} (h : AchCol sc g.colRef read c0 r c M X D I) :
    ∀ d, M + X + D ≤ d + 1 → c0 ∈ reachList g d c := by
  induction h with
  | start r c =>
    intro d _
    exact reachList_self g d c
  | subst c hp hprev ih =>
    next c0 r p M X D I =>
    intro d hd
    have h1 : 1 ≤ M + X := (achCol_counts _ _ _ hprev).2
    have hd1 : 1 ≤ d := by
      revert hd
      split <;> omega
    obtain ⟨d', rfl⟩ : ∃ d', d = d' + 1 := ⟨d - 1, by omega⟩
    refine List.mem_cons_of_mem _ (List.mem_flatMap.mpr ⟨p, hp, ih d' ?_⟩)
    revert hd
    split <;> omega
  | del c hp hprev ih =>
    next c0 r p M X D I =>
    intro d hd
    have h1 : 1 ≤ M + X := (achCol_counts _ _ _ hprev).2
    obtain ⟨d', rfl⟩ : ∃ d', d = d' + 1 := ⟨d - 1, by omega⟩
    exact List.mem_cons_of_mem _ (List.mem_flatMap.mpr ⟨p, hp, ih d' (by omega)⟩)
  | ins hprev ih =>
    intro d hd
    exact ih d hd

theorem foldl_min_le_init : ∀ (l : List Nat) (b : Nat), l.foldl min b ≤ b := by
  intro l
  induction l with
  | nil => intro b; exact le_refl b
  | cons x xs ih =>
    intro b
    exact le_trans (ih (min b x)) (min_le_left b x)

theorem foldl_min_le_mem :
    ∀ (l : List Nat) (b : Nat) (x : Nat), x ∈ l → l.foldl min b ≤ x := by
  intro l
  induction l with
  | nil => intro _ _ h; exact absurd h (List.not_mem_nil _)
  | cons y ys ih =>
    intro b x hx
    rcases List.mem_cons.mp hx with h | h
    · subst h
      exact le_trans (foldl_min_le_init ys _) (min_le_right b x)
    · exact ih _ x h

theorem leftMost_le_mem (g : Graph) (v d : Nat) {w : Nat}
    (hw : w ∈ reachList g d v) : computeLeftMostReachableVertex g v d ≤ w :=
  foldl_min_le_mem _ v w hw

theorem leftMost_le_self (g : Graph) (v d : Nat) :
    computeLeftMostReachableVertex g v d ≤ v :=
  foldl_min_le_init _ v

theorem getD_range_map {α : Type} (f : Nat → α) (d : α) (w j : Nat) (hj : j < w) :
    ((List.range w).map f).getD j d = f j := by
  rw [List.getD_eq_getElem?_getD, List.getElem?_map, List.getElem?_range hj]
  rfl

theorem slabColRef_width (g : Graph) (j0 w : Nat) : (slabColRef g j0 w).width = w := by
  simp [slabColRef, ColRef.width]

theorem slabColRef_charAt (g : Graph) (j0 w j : Nat) (hj : j < w) :
    (slabColRef g j0 w).charAt j = g.label (j0 + j) :=
  getD_range_map _ _ w j hj

theorem slabColRef_depsAt (g : Graph) (j0 w j : Nat) (hj : j < w) :
    (slabColRef g j0 w).depsAt j =
      ((g.inNbr (j0 + j)).filter (fun k => decide (j0 ≤ k))).map (fun k => k - j0) :=
  getD_range_map _ _ w j hj

theorem slabColRef_depsAt_out (g : Graph) (j0 w j : Nat) (hj : w ≤ j) :
    (slabColRef g j0 w).depsAt j = [] := by
  rw [ColRef.depsAt, List.getD_eq_default]
  simp [slabColRef]
  exact hj

theorem slabColRef_depsLt (g : Graph) (j0 w : Nat) (hg : g.topIn) :
    (slabColRef g j0 w).depsLt := by
  intro j k hk
  by_cases hj : j < w
  · rw [slabColRef_depsAt g j0 w j hj] at hk
    rcases List.mem_map.mp hk with ⟨q, hq, rfl⟩
    rcases List.mem_filter.mp hq with ⟨hmem, hge⟩
    have hlt := Graph.topIn_nbr hg (j0 + j) q hmem
    have hge' : j0 ≤ q := of_decide_eq_true hge
    omega
  · rw [slabColRef_depsAt_out g j0 w j (by omega)] at hk
    exact absurd hk (List.not_mem_nil _)

/-- A derivation of the full DP that starts at column `≥ j0` and ends below
`j0 + w` is a derivation of the slab DP (shifted by `j0`). -/
theorem achCol_full_to_slab (sc : Scores) (g : Graph) (read : List Char)
    (hg : g.topIn) (j0 w : Nat) {c0 r c M X D I : Nat}
    (h : AchCol sc g.colRef read c0 r c M X D I) :
    j0 ≤ c0 → c < j0 + w →
      AchCol sc (slabColRef g j0 w) read (c0 - j0) r (c - j0) M X D I := by
  induction h with
  | start r c =>
    intro hc0 hcw
    have hcw' : c - j0 < w := by omega
    have hchar : (slabColRef g j0 w).charAt (c - j0) = g.colRef.charAt c := by
      rw [slabColRef_charAt g j0 w _ hcw']
      have hjc : j0 + (c - j0) = c := by omega
      rw [hjc]
      rfl
    have hthis := @AchCol.start sc (slabColRef g j0 w) read r (c - j0)
    rw [hchar] at hthis
    exact hthis
  | subst c hp hprev ih =>
    next c0 r p M X D I =>
    intro hc0 hcw
    have hplt : p < c := graph_colRef_depsLt hg c p hp
    have hc0p : c0 ≤ p := achCol_c0_le sc g.colRef read (graph_colRef_depsLt hg) hprev
    have hslab := ih hc0 (by omega)
    have hcw' : c - j0 < w := by omega
    have hmem : p - j0 ∈ (slabColRef g j0 w).depsAt (c - j0) := by
      rw [slabColRef_depsAt g j0 w _ hcw']
      refine List.mem_map.mpr ⟨p, List.mem_filter.mpr ⟨?_, ?_⟩, rfl⟩
      · have hjc : j0 + (c - j0) = c := by omega
        rw [hjc]
        exact hp
      · exact decide_eq_true (by omega)
    have hchar : (slabColRef g j0 w).charAt (c - j0) = g.colRef.charAt c := by
      rw [slabColRef_charAt g j0 w _ hcw']
      have hjc : j0 + (c - j0) = c := by omega
      rw [hjc]
      rfl
    have hthis := AchCol.subst (c - j0) hmem hslab
    rw [hchar] at hthis
    exact hthis
  | del c hp hprev ih =>
    next c0 r p M X D I =>
    intro hc0 hcw
    have hplt : p < c := graph_colRef_depsLt hg c p hp
    have hc0p : c0 ≤ p := achCol_c0_le sc g.colRef read (graph_colRef_depsLt hg) hprev
    have hslab := ih hc0 (by omega)
    have hcw' : c - j0 < w := by omega
    have hmem : p - j0 ∈ (slabColRef g j0 w).depsAt (c - j0) := by
      rw [slabColRef_depsAt g j0 w _ hcw']
      refine List.mem_map.mpr ⟨p, List.mem_filter.mpr ⟨?_, ?_⟩, rfl⟩
      · have hjc : j0 + (c - j0) = c := by omega
        rw [hjc]
        exact hp
      · exact decide_eq_true (by omega)
    exact AchCol.del (c - j0) hmem hslab
  | ins hprev ih =>
    intro hc0 hcw
    exact AchCol.ins (ih hc0 hcw)

/-- A derivation of the slab DP is a derivation of the full DP at the shifted
columns (the slab's dependency lists are subsets of the full ones). -/
theorem achCol_slab_to_full (sc : Scores) (g : Graph) (read : List Char)
    (hg : g.topIn) (j0 w : Nat) {c0 r c M X D I : Nat}
    (h : AchCol sc (slabColRef g j0 w) read c0 r c M X D I) :
    c < w → AchCol sc g.colRef read (j0 + c0) r (j0 + c) M X D I := by
  have hPs : (slabColRef g j0 w).depsLt := slabColRef_depsLt g j0 w hg
  induction h with
  | start r c =>
    intro hc
    have hchar : g.colRef.charAt (j0 + c) = (slabColRef g j0 w).charAt c := by
      rw [slabColRef_charAt g j0 w c hc]
      rfl
    have hthis := @AchCol.start sc g.colRef read r (j0 + c)
    rw [hchar] at hthis
    exact hthis
  | subst c hp hprev ih =>
    next c0 r p M X D I =>
    intro hc
    have hplt : p < c := hPs c p hp
    have hfull := ih (by omega)
    rw [slabColRef_depsAt g j0 w c hc] at hp
    rcases List.mem_map.mp hp with ⟨q, hq, hqp⟩
    rcases List.mem_filter.mp hq with ⟨hmem, hge⟩
    have hge' : j0 ≤ q := of_decide_eq_true hge
    have hqj : j0 + p = q := by omega
    have hmem' : j0 + p ∈ g.colRef.depsAt (j0 + c) := by
      rw [hqj]
      exact hmem
    have hchar : g.colRef.charAt (j0 + c) = (slabColRef g j0 w).charAt c := by
      rw [slabColRef_charAt g j0 w c hc]
      rfl
    have hthis := AchCol.subst (j0 + c) hmem' hfull
    rw [hchar] at hthis
    exact hthis
  | del c hp hprev ih =>
    next c0 r p M X D I =>
    intro hc
    have hplt : p < c := hPs c p hp
    have hfull := ih (by omega)
    rw [slabColRef_depsAt g j0 w c hc] at hp
    rcases List.mem_map.mp hp with ⟨q, hq, hqp⟩
    rcases List.mem_filter.mp hq with ⟨hmem, hge⟩
    have hge' : j0 ≤ q := of_decide_eq_true hge
    have hqj : j0 + p = q := by omega
    have hmem' : j0 + p ∈ g.colRef.depsAt (j0 + c) := by
      rw [hqj]
      exact hmem
    exact AchCol.del (j0 + c) hmem' hfull
  | ins hprev ih =>
    intro hc
    exact AchCol.ins (ih hc)

theorem getD_mem_of_lt {α : Type} (l : List α) (k : Nat) (d : α) (hk : k < l.length) :
    l.getD k d ∈ l := by
  rw [List.getD_eq_getElem?_getD, List.getElem?_eq_getElem hk]
  exact List.getElem_mem hk

theorem mem_getD_exists {α : Type} {l : List α} {x : α} (d : α) (hx : x ∈ l) :
    ∃ i, i < l.length ∧ l.getD i d = x := by
  rcases List.mem_iff_getElem.mp hx with ⟨i, hi, hgi⟩
  refine ⟨i, hi, ?_⟩
  rw [List.getD_eq_getElem?_getD, List.getElem?_eq_getElem hi, hgi]
  rfl

/-- Truncating the read truncates the row list: row `i` depends only on the
first `i + 1` characters. -/
theorem dpRows_take (sc : Scores) (P : ColRef) :
    ∀ (cs : List Char) (prevRow : List Int) (h : Nat),
      dpRows sc P (cs.take h) prevRow = (dpRows sc P cs prevRow).take h := by
  intro cs
  induction cs with
  | nil => intro prevRow h; simp [dpRows]
  | cons c cs ih =>
    intro prevRow h
    cases h with
    | zero => rfl
    | succ h' =>
      rw [List.take_succ_cons]
      show dpRow sc P c prevRow :: dpRows sc P (cs.take h') (dpRow sc P c prevRow) =
        ((dpRow sc P c prevRow :: dpRows sc P cs (dpRow sc P c prevRow)).take (h' + 1))
      rw [List.take_succ_cons, ih]

theorem dpMatrix_row_length (sc : Scores) (P : ColRef) (read : List Char)
    {r : Nat} (hr : r < read.length) :
    ((dpMatrix sc P read).getD r []).length = P.width := by
  cases r with
  | zero =>
    show ((dpRows sc P read (List.replicate P.width 0)).getD 0 []).length = P.width
    rw [dpRows_getD_zero sc P read _ hr]
    exact dpRowN_length sc P _ _ P.width
  | succ r' =>
    show ((dpRows sc P read (List.replicate P.width 0)).getD (r' + 1) []).length = P.width
    rw [dpRows_getD_succ sc P read _ r' hr]
    exact dpRowN_length sc P _ _ P.width

theorem foldl_bestUpd_vid (cells : Nat → Nat → Int) :
    ∀ (L : List (Nat × Nat)) (b : BestScoreInfo), b.vid = b.refColumn →
      (L.foldl (bestUpd cells) b).vid = (L.foldl (bestUpd cells) b).refColumn := by
  intro L
  induction L with
  | nil => intro b hb; exact hb
  | cons x xs ih =>
    intro b hb
    simp only [List.foldl_cons]
    apply ih
    by_cases h : b.score < cells x.1 x.2
    · rw [bestUpd_of_lt cells b x h]
    · rw [bestUpd_of_ge cells b x h]
      exact hb

/-- What the scalar Phase 1 tracker guarantees about its output: the reported
endpoint is in range, its cell value is the reported score, the reported
`vid` equals `refColumn`, every cell is bounded by the score, and the score
is non-negative. -/
theorem phase1_best_props (sc : Scores) (g : Graph) (read : List Char)
    (hlen : 1 ≤ read.length) (hV : 1 ≤ g.numVertices) :
    (alignToDAGLocal_Phase1_Score sc g read).qryRow < read.length ∧
    (alignToDAGLocal_Phase1_Score sc g read).refColumn < g.numVertices ∧
    (alignToDAGLocal_Phase1_Score sc g read).vid =
      (alignToDAGLocal_Phase1_Score sc g read).refColumn ∧
    cellAt (phase1Matrix sc g read) (alignToDAGLocal_Phase1_Score sc g read).qryRow
        (alignToDAGLocal_Phase1_Score sc g read).refColumn =
      (alignToDAGLocal_Phase1_Score sc g read).score ∧
    (∀ r, r < read.length → ∀ v, v < g.numVertices →
      cellAt (phase1Matrix sc g read) r v ≤ (alignToDAGLocal_Phase1_Score sc g read).score) ∧
    0 ≤ (alignToDAGLocal_Phase1_Score sc g read).score := by
  have hscore : (alignToDAGLocal_Phase1_Score sc g read).score =
      (phase1ScanF read.length g.numVertices).foldl
        (fun s ij => max s (cellAt (phase1Matrix sc g read) ij.1 ij.2)) 0 :=
    foldl_bestUpd_score _ _ _
  have hb : ∀ r, r < read.length → ∀ v, v < g.numVertices →
      cellAt (phase1Matrix sc g read) r v ≤ (alignToDAGLocal_Phase1_Score sc g read).score := by
    intro r hr v hv
    rw [hscore]
    exact le_foldl_max_mem _ _ 0 (r, v) (phase1ScanF_mem.mpr ⟨hr, hv⟩)
  have hnn : 0 ≤ (alignToDAGLocal_Phase1_Score sc g read).score := by
    rw [hscore]
    exact le_foldl_max_init _ _ 0
  have hvid : (alignToDAGLocal_Phase1_Score sc g read).vid =
      (alignToDAGLocal_Phase1_Score sc g read).refColumn :=
    foldl_bestUpd_vid _ _ ⟨0, 0, 0, 0⟩ rfl
  have halign : alignToDAGLocal_Phase1_Score sc g read =
      (phase1ScanF read.length g.numVertices).foldl
        (bestUpd (cellAt (phase1Matrix sc g read))) ⟨0, 0, 0, 0⟩ := rfl
  rcases foldl_bestUpd_find (cellAt (phase1Matrix sc g read))
      (phase1ScanF read.length g.numVertices) with ⟨hz, hinit⟩ | ⟨hpos, hfind⟩
  · rw [← halign] at hz hinit
    have h00 : cellAt (phase1Matrix sc g read) 0 0 = 0 := by
      have h1 := hb 0 hlen 0 hV
      rw [hz] at h1
      have h2 : 0 ≤ cellAt (phase1Matrix sc g read) 0 0 :=
        dpMatrix_cell_nonneg sc g.colRef read 0 0
      omega
    rw [hinit]
    refine ⟨hlen, hV, rfl, ?_, ?_, le_refl 0⟩
    · exact h00
    · intro r hr v hv
      have := hb r hr v hv
      rw [hinit] at this
      exact this
  · rw [← halign] at hpos hfind
    have hmem := List.mem_of_find?_eq_some hfind
    have hpred := List.find?_some hfind
    rcases phase1ScanF_mem.mp hmem with ⟨h1, h2⟩
    simp only [decide_eq_true_eq] at hpred
    exact ⟨h1, h2, hvid, hpred, hb, hnn⟩

theorem getD_take_lt {α : Type} (l : List α) (n i : Nat) (d : α) (hi : i < n) :
    (l.take n).getD i d = l.getD i d := by
  rw [List.getD_eq_getElem?_getD, List.getD_eq_getElem?_getD, List.getElem?_take,
    if_pos hi]

/-- The Phase 3 final row is row `qryRow` of the slab DP over the whole read:
truncating the read to `qryRow + 1` rows does not change the rows kept. -/
theorem phase3FinalRow_eq (sc : Scores) (g : Graph) (read : List Char)
    (best : BestScoreInfo) (hrow : best.qryRow < read.length) :
    phase3FinalRow sc g read best =
      (dpMatrix sc (slabColRef g (phase2Leftmost sc g read best)
        (best.refColumn + 1 - phase2Leftmost sc g read best)) read).getD best.qryRow [] := by
  show (dpMatrix sc (slabColRef g (phase2Leftmost sc g read best)
      (best.refColumn + 1 - phase2Leftmost sc g read best))
        (read.take (best.qryRow + 1))).getD best.qryRow [] = _
  show (dpRows sc _ (read.take (best.qryRow + 1)) _).getD best.qryRow [] = _
  rw [dpRows_take]
  exact getD_take_lt _ _ _ _ (by omega)

/-- The Phase 3 core: given the facts the Phase 1 tracker establishes about
`best`, the slab recomputation reproduces the best score in its final row, at
the column of the best endpoint. -/
theorem phase3_core (sc : Scores) (g : Graph) (read : List Char) (hg : g.topIn)
    (hdel : 1 ≤ sc.delS) (best : BestScoreInfo)
    (hrow : best.qryRow < read.length) (hcol : best.refColumn < g.numVertices)
    (hvid : best.vid = best.refColumn)
    (hcellB : cellAt (dpMatrix sc g.colRef read) best.qryRow best.refColumn = best.score)
    (hbound : ∀ r, r < read.length → ∀ v, v < g.numVertices →
      cellAt (dpMatrix sc g.colRef read) r v ≤ best.score)
    (hBnn : 0 ≤ best.score) :
    (phase3FinalRow sc g read best).foldr max 0 = best.score ∧
    (phase3FinalRow sc g read best).getD
      (best.refColumn - phase2Leftmost sc g read best) 0 = best.score := by
  have hfull_depsLt := graph_colRef_depsLt hg
  have hj0le : phase2Leftmost sc g read best ≤ best.refColumn := by
    have h1 : phase2Leftmost sc g read best ≤ best.vid :=
      leftMost_le_self g best.vid (maxDistance sc read.length)
    rw [hvid] at h1
    exact h1
  have hslab_depsLt : (slabColRef g (phase2Leftmost sc g read best)
      (best.refColumn + 1 - phase2Leftmost sc g read best)).depsLt :=
    slabColRef_depsLt g _ _ hg
  have hwidth : (slabColRef g (phase2Leftmost sc g read best)
      (best.refColumn + 1 - phase2Leftmost sc g read best)).width =
      best.refColumn + 1 - phase2Leftmost sc g read best :=
    slabColRef_width g _ _
  have hfinal := phase3FinalRow_eq sc g read best hrow
  -- every slab cell in the final row is at most the best score
  have hcell_le : ∀ j, j < best.refColumn + 1 - phase2Leftmost sc g read best →
      cellAt (dpMatrix sc (slabColRef g (phase2Leftmost sc g read best)
        (best.refColumn + 1 - phase2Leftmost sc g read best)) read) best.qryRow j ≤
        best.score := by
    intro j hj
    have hjw : j < (slabColRef g (phase2Leftmost sc g read best)
        (best.refColumn + 1 - phase2Leftmost sc g read best)).width := by
      rw [hwidth]; exact hj
    rcases dpMatrix_cell_attained sc _ read hslab_depsLt best.qryRow hrow j hjw with
      hz | ⟨c0, M, X, D, I, hach, hsc⟩
    · rw [hz]; exact hBnn
    · have hfullDeriv := achCol_slab_to_full sc g read hg _ _ hach hj
      have hcolV : phase2Leftmost sc g read best + j < g.colRef.width := by
        show _ < g.numVertices
        omega
      have hle := achCol_score_le sc g.colRef read hfull_depsLt hfullDeriv hrow hcolV
      rw [hsc] at hle
      exact le_trans hle (hbound _ hrow _ hcolV)
  -- the slab cell at the best endpoint equals the best score
  have htarget : cellAt (dpMatrix sc (slabColRef g (phase2Leftmost sc g read best)
      (best.refColumn + 1 - phase2Leftmost sc g read best)) read) best.qryRow
      (best.refColumn - phase2Leftmost sc g read best) = best.score := by
    have hle := hcell_le (best.refColumn - phase2Leftmost sc g read best) (by omega)
    have hge : best.score ≤ cellAt (dpMatrix sc (slabColRef g (phase2Leftmost sc g read best)
        (best.refColumn + 1 - phase2Leftmost sc g read best)) read) best.qryRow
        (best.refColumn - phase2Leftmost sc g read best) := by
      by_cases hB0 : best.score = 0
      · rw [hB0]
        exact dpMatrix_cell_nonneg sc _ read _ _
      · rcases dpMatrix_cell_attained sc g.colRef read hfull_depsLt best.qryRow hrow
            best.refColumn (by show _ < g.numVertices; exact hcol) with
          hz | ⟨c0, M, X, D, I, hach, hsc⟩
        · rw [hcellB] at hz
          exact absurd hz hB0
        · rw [hcellB] at hsc
          obtain ⟨hMXI, hMX1⟩ := achCol_counts sc g.colRef read hach
          -- bound the deletion count from the non-negative score
          have hmm : (0 : Int) ≤ (X : Int) * sc.mismatchS := by positivity
          have hii : (0 : Int) ≤ (I : Int) * sc.insS := by positivity
          have hDd : (D : Int) * sc.delS ≤ (M : Int) * sc.matchS := by
            have hs0 : (0 : Int) ≤ achScore sc M X D I := by rw [hsc]; exact hBnn
            unfold achScore at hs0
            linarith
          have hMlen : M ≤ read.length := by omega
          have hDdN : D * sc.delS ≤ read.length * sc.matchS := by
            have h2 : (M : Int) * sc.matchS ≤ (read.length : Int) * sc.matchS := by
              have : (M : Int) ≤ read.length := by exact_mod_cast hMlen
              exact mul_le_mul_of_nonneg_right this (Int.ofNat_nonneg _)
            exact_mod_cast le_trans hDd h2
          have hD : D ≤ read.length * sc.matchS / sc.delS :=
            (Nat.le_div_iff_mul_le (by omega)).mpr hDdN
          have hceil : read.length * sc.matchS / sc.delS ≤
              (read.length * sc.matchS + sc.delS - 1) / sc.delS :=
            Nat.div_le_div_right
              (Nat.le_sub_one_of_lt (Nat.lt_add_of_pos_right (by omega)))
          have hedge : M + X + D ≤ maxDistance sc read.length + 1 := by
            have hMX : M + X ≤ read.length := by omega
            have hD2 : D ≤ (read.length * sc.matchS + sc.delS - 1) / sc.delS :=
              le_trans hD hceil
            obtain ⟨q, hq⟩ : ∃ q, q = (read.length * sc.matchS + sc.delS - 1) / sc.delS :=
              ⟨_, rfl⟩
            show M + X + D ≤
              read.length + (read.length * sc.matchS + sc.delS - 1) / sc.delS + 1
            rw [← hq] at hD2 ⊢
            omega
          have hreach : c0 ∈ reachList g (maxDistance sc read.length) best.refColumn :=
            achCol_full_reachable sc g read hach _ hedge
          have hj0c0 : phase2Leftmost sc g read best ≤ c0 := by
            have hlm : phase2Leftmost sc g read best =
                computeLeftMostReachableVertex g best.refColumn (maxDistance sc read.length) := by
              unfold phase2Leftmost
              rw [hvid]
            rw [hlm]
            exact leftMost_le_mem g _ _ hreach
          have hslabDeriv := achCol_full_to_slab sc g read hg
            (phase2Leftmost sc g read best)
            (best.refColumn + 1 - phase2Leftmost sc g read best) hach hj0c0 (by omega)
          have hcw : best.refColumn - phase2Leftmost sc g read best <
              (slabColRef g (phase2Leftmost sc g read best)
                (best.refColumn + 1 - phase2Leftmost sc g read best)).width := by
            rw [hwidth]; omega
          have hge' := achCol_score_le sc _ read hslab_depsLt hslabDeriv hrow hcw
          rw [hsc] at hge'
          exact hge'
    omega
  have hlenRow : (phase3FinalRow sc g read best).length =
      best.refColumn + 1 - phase2Leftmost sc g read best := by
    rw [hfinal, dpMatrix_row_length sc _ read hrow, hwidth]
  constructor
  · apply le_antisymm
    · apply foldr_max_le
      · exact hBnn
      · intro x hx
        rcases mem_getD_exists 0 hx with ⟨i, hi, hgi⟩
        rw [hlenRow] at hi
        rw [← hgi, hfinal]
        exact hcell_le i hi
    · have hmem : (phase3FinalRow sc g read best).getD
          (best.refColumn - phase2Leftmost sc g read best) 0 ∈
          phase3FinalRow sc g read best := by
        apply getD_mem_of_lt
        rw [hlenRow]
        omega
      have hval : (phase3FinalRow sc g read best).getD
          (best.refColumn - phase2Leftmost sc g read best) 0 = best.score := by
        rw [hfinal]
        exact htarget
      rw [← hval]
      exact le_foldr_max_mem _ 0 _ hmem
  · rw [hfinal]
    exact htarget

/-- **C4.** For every topologically sorted graph and non-empty read (with a
positive deletion penalty, which Phase 2's division by `del` presupposes), the
Phase 3 slab recomputation — the forward recurrence restricted to columns
starting at the leftmost vertex reachable backward from the best endpoint
within `read.length + ceil(read.length * match / del)` characters, to rows
`0 .. bestRow`, with predecessor offsets `k < j0` skipped — reproduces the
Phase 1 best score: the maximum of its final row equals `best.score` and the
final-row entry at column `best.refColumn - j0` attains it, so both Phase 3
assertions (align.hpp lines 185-186) hold. -/
theorem C4_phase3_assertions (sc : Scores) (g : Graph) (read : List Char)
    (hg : g.topIn) (hdel : 1 ≤ sc.delS) (hlen : 1 ≤ read.length)
    (hV : 1 ≤ g.numVertices) :
    (phase3FinalRow sc g read (alignToDAGLocal_Phase1_Score sc g read)).foldr max 0 =
      (alignToDAGLocal_Phase1_Score sc g read).score ∧
    (phase3FinalRow sc g read (alignToDAGLocal_Phase1_Score sc g read)).getD
      ((alignToDAGLocal_Phase1_Score sc g read).refColumn -
        phase2Leftmost sc g read (alignToDAGLocal_Phase1_Score sc g read)) 0 =
      (alignToDAGLocal_Phase1_Score sc g read).score := by
  obtain ⟨hrow, hcol, hvid, hcellB, hbound, hBnn⟩ := phase1_best_props sc g read hlen hV
  exact phase3_core sc g read hg hdel _ hrow hcol hvid hcellB hbound hBnn

/-- Witness for C4 on the two-vertex chain graph with read "AC". -/
theorem C4_phase3_assertions_witness :
    gChain2.topIn ∧ 1 ≤ scoreUnit.delS ∧ 1 ≤ (['A', 'C'] : List Char).length ∧
      1 ≤ gChain2.numVertices ∧
      ((phase3FinalRow scoreUnit gChain2 ['A', 'C']
          (alignToDAGLocal_Phase1_Score scoreUnit gChain2 ['A', 'C'])).foldr max 0 =
        (alignToDAGLocal_Phase1_Score scoreUnit gChain2 ['A', 'C']).score ∧
      (phase3FinalRow scoreUnit gChain2 ['A', 'C']
          (alignToDAGLocal_Phase1_Score scoreUnit gChain2 ['A', 'C'])).getD
        ((alignToDAGLocal_Phase1_Score scoreUnit gChain2 ['A', 'C']).refColumn -
          phase2Leftmost scoreUnit gChain2 ['A', 'C']
            (alignToDAGLocal_Phase1_Score scoreUnit gChain2 ['A', 'C'])) 0 =
        (alignToDAGLocal_Phase1_Score scoreUnit gChain2 ['A', 'C']).score) :=
  ⟨by decide, by decide, by decide, by decide,
    C4_phase3_assertions scoreUnit gChain2 ['A', 'C'] (by decide) (by decide)
      (by decide) (by decide)⟩

theorem tbTrack_fold_fst (f : Nat → Int) :
    ∀ (deps : List Nat) (q : Int × Nat),
      (deps.foldl (fun q k => if q.1 < f k then (f k, k) else q) q).1 =
        deps.foldl (fun a k => max a (f k)) q.1 := by
  intro deps
  induction deps with
  | nil => intro q; rfl
  | cons k ks ih =>
    intro q
    simp only [List.foldl_cons]
    rw [ih]
    by_cases h : q.1 < f k
    · simp only [if_pos h]
      rw [max_eq_right (le_of_lt h)]
    · simp only [if_neg h]
      rw [max_eq_left (not_lt.mp h)]

theorem tbTrack_fold_spec (f : Nat → Int) :
    ∀ (deps : List Nat) (q : Int × Nat),
      deps.foldl (fun q k => if q.1 < f k then (f k, k) else q) q = q ∨
        ((deps.foldl (fun q k => if q.1 < f k then (f k, k) else q) q).2 ∈ deps ∧
          (deps.foldl (fun q k => if q.1 < f k then (f k, k) else q) q).1 =
            f (deps.foldl (fun q k => if q.1 < f k then (f k, k) else q) q).2) := by
  intro deps
  induction deps with
  | nil => intro q; exact Or.inl rfl
  | cons k ks ih =>
    intro q
    simp only [List.foldl_cons]
    by_cases h : q.1 < f k
    · simp only [if_pos h]
      rcases ih (f k, k) with h2 | ⟨h2, h3⟩
      · rw [h2]
        exact Or.inr ⟨List.mem_cons_self k ks, rfl⟩
      · exact Or.inr ⟨List.mem_cons_of_mem k h2, h3⟩
    · simp only [if_neg h]
      rcases ih q with h2 | ⟨h2, h3⟩
      · exact Or.inl h2
      · exact Or.inr ⟨List.mem_cons_of_mem k h2, h3⟩

theorem tbFM_fst (sc : Scores) (P : ColRef) (read : List Char) (c : Nat) (row : Int) :
    (tbFM sc P read c row).1 =
      (P.depsAt c).foldl
        (fun a k => max a (cellFn sc P read (row - 1) k + tbMS sc P read c row))
        (tbMS sc P read c row) :=
  tbTrack_fold_fst _ _ _

theorem tbFD_fst (sc : Scores) (P : ColRef) (read : List Char) (c : Nat) (row : Int) :
    (tbFD sc P read c row).1 =
      (P.depsAt c).foldl
        (fun a k => max a (cellFn sc P read row k - (sc.delS : Int))) (-1) :=
  tbTrack_fold_fst _ _ _

theorem tbFM_spec (sc : Scores) (P : ColRef) (read : List Char) (c : Nat) (row : Int) :
    tbFM sc P read c row = (tbMS sc P read c row, c) ∨
      ((tbFM sc P read c row).2 ∈ P.depsAt c ∧
        (tbFM sc P read c row).1 =
          cellFn sc P read (row - 1) (tbFM sc P read c row).2 + tbMS sc P read c row) :=
  tbTrack_fold_spec _ _ _

theorem tbFD_spec (sc : Scores) (P : ColRef) (read : List Char) (c : Nat) (row : Int) :
    tbFD sc P read c row = (-1, 0) ∨
      ((tbFD sc P read c row).2 ∈ P.depsAt c ∧
        (tbFD sc P read c row).1 =
          cellFn sc P read row (tbFD sc P read c row).2 - (sc.delS : Int)) :=
  tbTrack_fold_spec _ _ _

theorem cellFn_nonneg (sc : Scores) (P : ColRef) (read : List Char) (row : Int) (j : Nat) :
    0 ≤ cellFn sc P read row j := by
  rw [cellFn]
  split
  · exact dpMatrix_cell_nonneg sc P read _ _
  · exact le_refl 0

/-- The Phase 4 loop body reads exactly the recurrence branches: at a valid
row and column, the current cell is the maximum of the insertion candidate,
`fromMatch` and `fromDeletion` (and `0`). -/
theorem cellFn_branches (sc : Scores) (P : ColRef) (read : List Char) (hP : P.depsLt)
    (c : Nat) (row : Int) (h0 : 0 ≤ row) (hrow : row < (read.length : Int))
    (hc : c < P.width) :
    cellFn sc P read row c =
      max (max (cellFn sc P read (row - 1) c - (sc.insS : Int)) (tbFM sc P read c row).1)
        (max (tbFD sc P read c row).1 0) := by
  obtain ⟨prevRow, hrowEq, hprevAt⟩ : ∃ pr : List Int,
      (dpMatrix sc P read).getD row.toNat [] = dpRow sc P (read.getD row.toNat '?') pr ∧
      ∀ p, pr.getD p 0 = cellFn sc P read (row - 1) p := by
    rcases Nat.eq_zero_or_pos row.toNat with h00 | hpos
    · refine ⟨List.replicate P.width 0, ?_, ?_⟩
      · rw [h00]
        exact dpRows_getD_zero sc P read _ (by omega)
      · intro p
        rw [getD_replicate_zero, cellFn, if_neg (by omega)]
    · obtain ⟨r', hr'⟩ : ∃ r', row.toNat = r' + 1 := ⟨row.toNat - 1, by omega⟩
      refine ⟨(dpMatrix sc P read).getD r' [], ?_, ?_⟩
      · rw [hr']
        exact dpRows_getD_succ sc P read _ r' (by omega)
      · intro p
        rw [cellFn, if_pos (by omega : (0 : Int) ≤ row - 1)]
        have h2 : (row - 1).toNat = r' := by omega
        rw [h2]
        rfl
  have hcellEq : cellFn sc P read row c =
      dpCellVal sc P (read.getD row.toNat '?') prevRow
        (dpRow sc P (read.getD row.toNat '?') prevRow) c := by
    rw [cellFn, if_pos h0]
    show ((dpMatrix sc P read).getD row.toNat []).getD c 0 = _
    rw [hrowEq]
    exact dpRow_getD sc P _ prevRow hP hc
  have hcur : ∀ p, (dpRow sc P (read.getD row.toNat '?') prevRow).getD p 0 =
      cellFn sc P read row p := by
    intro p
    rw [cellFn, if_pos h0]
    show _ = ((dpMatrix sc P read).getD row.toNat []).getD p 0
    rw [hrowEq]
  rw [hcellEq]
  simp only [dpCellVal]
  have hms : matchScore sc (read.getD row.toNat '?') (P.charAt c) =
      tbMS sc P read c row := rfl
  rw [hms]
  have hfm : (P.depsAt c).foldl
        (fun acc k => max acc (prevRow.getD k 0 + tbMS sc P read c row))
        (tbMS sc P read c row) =
      (P.depsAt c).foldl
        (fun acc k => max acc (cellFn sc P read (row - 1) k + tbMS sc P read c row))
        (tbMS sc P read c row) :=
    foldl_max_fun_congr _ _ (fun k _ => by rw [hprevAt k])
  have hfd : (P.depsAt c).foldl
        (fun acc k => max acc
          ((dpRow sc P (read.getD row.toNat '?') prevRow).getD k 0 - (sc.delS : Int)))
        (-1) =
      (P.depsAt c).foldl
        (fun acc k => max acc (cellFn sc P read row k - (sc.delS : Int))) (-1) :=
    foldl_max_fun_congr _ _ (fun k _ => by rw [hcur k])
  rw [hprevAt c, hfm, hfd, tbFM_fst, tbFD_fst]

theorem opScore_opChar (sc : Scores) (a b : Char) :
    opScore sc (opChar sc (matchScore sc a b)) = matchScore sc a b := by
  unfold matchScore opChar
  by_cases h : b = a
  · rw [if_pos h, if_pos rfl]
    rfl
  · rw [if_neg h]
    by_cases h2 : -(sc.mismatchS : Int) = (sc.matchS : Int)
    · rw [if_pos h2]
      show (sc.matchS : Int) = -(sc.mismatchS : Int)
      exact h2.symm
    · rw [if_neg h2]
      rfl

theorem cigarScore_cons (sc : Scores) (ch : Char) (s : List Char) :
    cigarScore sc (ch :: s) = opScore sc ch + cigarScore sc s := by
  simp [cigarScore]

theorem cigarScore_reverse (sc : Scores) (s : List Char) :
    cigarScore sc s.reverse = cigarScore sc s := by
  simp only [cigarScore]
  rw [List.map_reverse, List.sum_reverse]

theorem cigarRunScore_push (sc : Scores) (ch : Char) (acc : List (Nat × Char)) :
    cigarRunScore sc (cigarPush ch acc) = opScore sc ch + cigarRunScore sc acc := by
  match acc with
  | [] => simp [cigarPush, cigarRunScore]
  | (n, c) :: t =>
    have h2 : ∀ (d : Char) (m : Nat) (l : List (Nat × Char)),
        cigarRunScore sc ((m, d) :: l) = (m : Int) * opScore sc d + cigarRunScore sc l := by
      intro d m l
      simp [cigarRunScore]
    by_cases he : c = ch
    · subst he
      have h1 : cigarPush c ((n, c) :: t) = (n + 1, c) :: t := by
        simp [cigarPush]
      rw [h1, h2, h2]
      push_cast
      ring
    · have h1 : cigarPush ch ((n, c) :: t) = (1, ch) :: (n, c) :: t := by
        simp [cigarPush, he]
      rw [h1, h2, h2]
      push_cast
      ring

theorem cigarRunScore_compact (sc : Scores) :
    ∀ s : List Char, cigarRunScore sc (cigarCompact s) = cigarScore sc s := by
  intro s
  induction s with
  | nil => rfl
  | cons ch s ih =>
    have hstep : cigarCompact (ch :: s) = cigarPush ch (cigarCompact s) := rfl
    rw [hstep, cigarRunScore_push, ih, cigarScore_cons]

/-- Classification of the Phase 4 loop body at a valid state: it never hits
the insertion assert, exits only with a zero residual cell or emitting a final
character worth exactly the current cell, and every move emits a character
whose score plus the destination cell equals the current cell, while strictly
decreasing the termination measure. -/
theorem tbNext_spec (sc : Scores) (P : ColRef) (read : List Char) (hP : P.depsLt)
    (c : Nat) (row : Int) (hc : c < P.width) (hrow : row < (read.length : Int)) :
    tbNext sc P read c row ≠ TBNext.bad ∧
    (tbNext sc P read c row = TBNext.stop none → cellFn sc P read row c = 0) ∧
    (∀ op, tbNext sc P read c row = TBNext.stop (some op) →
      opScore sc op = cellFn sc P read row c) ∧
    (∀ c2 row2 op, tbNext sc P read c row = TBNext.move c2 row2 op →
      c2 ≤ c ∧ row2 ≤ row ∧ (row2 + 1).toNat + c2 < (row + 1).toNat + c ∧
      opScore sc op + cellFn sc P read row2 c2 = cellFn sc P read row c) := by
  by_cases h0 : row < 0
  · have hn : tbNext sc P read c row = TBNext.stop none := by
      unfold tbNext
      rw [if_pos h0]
    refine ⟨by rw [hn]; simp, ?_, ?_, ?_⟩
    · intro _
      rw [cellFn, if_neg (by omega)]
    · intro op h
      rw [hn] at h
      simp at h
    · intro c2 row2 op h
      rw [hn] at h
      simp at h
  · push_neg at h0
    by_cases h1 : cellFn sc P read row c ≤ 0
    · have hn : tbNext sc P read c row = TBNext.stop none := by
        unfold tbNext
        rw [if_neg (by omega), if_pos h1]
      refine ⟨by rw [hn]; simp, ?_, ?_, ?_⟩
      · intro _
        exact le_antisymm h1 (cellFn_nonneg sc P read row c)
      · intro op h
        rw [hn] at h
        simp at h
      · intro c2 row2 op h
        rw [hn] at h
        simp at h
    · push_neg at h1
      have hbr := cellFn_branches sc P read hP c row h0 hrow hc
      by_cases h2 : cellFn sc P read row c = (tbFM sc P read c row).1
      · by_cases h3 : (tbFM sc P read c row).2 = c
        · have hn : tbNext sc P read c row =
              TBNext.stop (some (opChar sc (tbMS sc P read c row))) := by
            unfold tbNext
            rw [if_neg (by omega), if_neg (by omega), if_pos h2, if_pos h3]
          refine ⟨by rw [hn]; simp, ?_, ?_, ?_⟩
          · intro h
            rw [hn] at h
            simp at h
          · intro op h
            rw [hn] at h
            simp only [TBNext.stop.injEq, Option.some.injEq] at h
            subst h
            have hop : opScore sc (opChar sc (tbMS sc P read c row)) =
                tbMS sc P read c row :=
              opScore_opChar sc (read.getD row.toNat '?') (P.charAt c)
            rw [hop]
            rcases tbFM_spec sc P read c row with hini | ⟨hmem, _⟩
            · rw [h2, hini]
            · have hlt := hP c _ hmem
              rw [h3] at hlt
              exact absurd hlt (lt_irrefl c)
          · intro c2 row2 op h
            rw [hn] at h
            simp at h
        · have hn : tbNext sc P read c row =
              TBNext.move (tbFM sc P read c row).2 (row - 1)
                (opChar sc (tbMS sc P read c row)) := by
            unfold tbNext
            rw [if_neg (by omega), if_neg (by omega), if_pos h2, if_neg h3]
          rcases tbFM_spec sc P read c row with hini | ⟨hmem, hval⟩
          · exact absurd (by rw [hini]) h3
          · have hlt : (tbFM sc P read c row).2 < c := hP c _ hmem
            refine ⟨by rw [hn]; simp, ?_, ?_, ?_⟩
            · intro h
              rw [hn] at h
              simp at h
            · intro op h
              rw [hn] at h
              simp at h
            · intro c2 row2 op h
              rw [hn] at h
              injection h with e1 e2 e3
              subst e1
              subst e2
              subst e3
              have hop : opScore sc (opChar sc (tbMS sc P read c row)) =
                  tbMS sc P read c row :=
                opScore_opChar sc (read.getD row.toNat '?') (P.charAt c)
              refine ⟨le_of_lt hlt, by omega, by omega, ?_⟩
              rw [hop]
              omega
      · by_cases h4 : cellFn sc P read row c = (tbFD sc P read c row).1
        · have hn : tbNext sc P read c row =
              TBNext.move (tbFD sc P read c row).2 row 'D' := by
            unfold tbNext
            rw [if_neg (by omega), if_neg (by omega), if_neg h2, if_pos h4]
          rcases tbFD_spec sc P read c row with hini | ⟨hmem, hval⟩
          · have hminus : (tbFD sc P read c row).1 = -1 := by rw [hini]
            omega
          · have hlt : (tbFD sc P read c row).2 < c := hP c _ hmem
            refine ⟨by rw [hn]; simp, ?_, ?_, ?_⟩
            · intro h
              rw [hn] at h
              simp at h
            · intro op h
              rw [hn] at h
              simp at h
            · intro c2 row2 op h
              rw [hn] at h
              injection h with e1 e2 e3
              subst e1
              subst e2
              subst e3
              have hD : opScore sc 'D' = -(sc.delS : Int) := rfl
              refine ⟨le_of_lt hlt, le_refl row, by omega, ?_⟩
              rw [hD]
              omega
        · by_cases h5 : cellFn sc P read row c =
              cellFn sc P read (row - 1) c - (sc.insS : Int)
          · have hn : tbNext sc P read c row = TBNext.move c (row - 1) 'I' := by
              unfold tbNext
              rw [if_neg (by omega), if_neg (by omega), if_neg h2, if_neg h4, if_pos h5]
            refine ⟨by rw [hn]; simp, ?_, ?_, ?_⟩
            · intro h
              rw [hn] at h
              simp at h
            · intro op h
              rw [hn] at h
              simp at h
            · intro c2 row2 op h
              rw [hn] at h
              injection h with e1 e2 e3
              subst e1
              subst e2
              subst e3
              have hI : opScore sc 'I' = -(sc.insS : Int) := rfl
              refine ⟨le_refl c, by omega, by omega, ?_⟩
              rw [hI]
              omega
          · exfalso
            rcases max_choice
                (max (cellFn sc P read (row - 1) c - (sc.insS : Int))
                  (tbFM sc P read c row).1)
                (max (tbFD sc P read c row).1 0) with hA | hA <;> rw [hA] at hbr
            · rcases max_choice (cellFn sc P read (row - 1) c - (sc.insS : Int))
                  (tbFM sc P read c row).1 with hB | hB <;> rw [hB] at hbr
              · exact h5 hbr
              · exact h2 hbr
            · rcases max_choice (tbFD sc P read c row).1 0 with hB | hB <;> rw [hB] at hbr
              · exact h4 hbr
              · omega

/-- With fuel exceeding the measure `(row + 1) + col`, the walk never runs
out: every move strictly decreases the measure. -/
theorem tbWalk_no_fuel (sc : Scores) (P : ColRef) (read : List Char) (hP : P.depsLt) :
    ∀ (fuel c : Nat) (row : Int) (acc : List Char), c < P.width →
      row < (read.length : Int) → (row + 1).toNat + c < fuel →
      tbWalk sc P read fuel c row acc ≠ TBOut.fuel := by
  intro fuel
  induction fuel with
  | zero =>
    intro c row acc _ _ hm
    omega
  | succ fuel ih =>
    intro c row acc hc hrow hm
    obtain ⟨hbad, hstop0, hstop1, hmove⟩ := tbNext_spec sc P read hP c row hc hrow
    cases hn : tbNext sc P read c row with
    | stop op =>
      cases op with
      | none =>
        have hw : tbWalk sc P read (fuel + 1) c row acc = TBOut.ok acc := by
          simp only [tbWalk, hn]
        rw [hw]
        simp
      | some op =>
        have hw : tbWalk sc P read (fuel + 1) c row acc = TBOut.ok (op :: acc) := by
          simp only [tbWalk, hn]
        rw [hw]
        simp
    | move c2 row2 op =>
      have hw : tbWalk sc P read (fuel + 1) c row acc =
          tbWalk sc P read fuel c2 row2 (op :: acc) := by
        simp only [tbWalk, hn]
      obtain ⟨hc2, hrow2, hmeas, _⟩ := hmove c2 row2 op hn
      rw [hw]
      exact ih c2 row2 (op :: acc) (lt_of_le_of_lt hc2 hc)
        (lt_of_le_of_lt hrow2 hrow) (by omega)
    | bad => exact absurd hn hbad

/-- The walk never hits the insertion assert and, on normal exit, the emitted
cigar characters score exactly the starting cell on top of the accumulator. -/
theorem tbWalk_score (sc : Scores) (P : ColRef) (read : List Char) (hP : P.depsLt) :
    ∀ (fuel c : Nat) (row : Int) (acc : List Char), c < P.width →
      row < (read.length : Int) →
      tbWalk sc P read fuel c row acc ≠ TBOut.fail ∧
      (∀ out, tbWalk sc P read fuel c row acc = TBOut.ok out →
        cigarScore sc out = cigarScore sc acc + cellFn sc P read row c) := by
  intro fuel
  induction fuel with
  | zero =>
    intro c row acc _ _
    constructor
    · show TBOut.fuel ≠ TBOut.fail
      simp
    · intro out h
      simp [tbWalk] at h
  | succ fuel ih =>
    intro c row acc hc hrow
    obtain ⟨hbad, hstop0, hstop1, hmove⟩ := tbNext_spec sc P read hP c row hc hrow
    cases hn : tbNext sc P read c row with
    | stop op =>
      cases op with
      | none =>
        have hw : tbWalk sc P read (fuel + 1) c row acc = TBOut.ok acc := by
          simp only [tbWalk, hn]
        constructor
        · rw [hw]
          simp
        · intro out h
          rw [hw] at h
          simp only [TBOut.ok.injEq] at h
          subst h
          rw [hstop0 hn]
          omega
      | some op =>
        have hw : tbWalk sc P read (fuel + 1) c row acc = TBOut.ok (op :: acc) := by
          simp only [tbWalk, hn]
        constructor
        · rw [hw]
          simp
        · intro out h
          rw [hw] at h
          simp only [TBOut.ok.injEq] at h
          subst h
          rw [cigarScore_cons, hstop1 op hn]
          omega
    | move c2 row2 op =>
      have hw : tbWalk sc P read (fuel + 1) c row acc =
          tbWalk sc P read fuel c2 row2 (op :: acc) := by
        simp only [tbWalk, hn]
      obtain ⟨hc2, hrow2, _, hsc2⟩ := hmove c2 row2 op hn
      obtain ⟨hfail, hok⟩ := ih c2 row2 (op :: acc) (lt_of_le_of_lt hc2 hc)
        (lt_of_le_of_lt hrow2 hrow)
      constructor
      · rw [hw]
        exact hfail
      · intro out h
        rw [hw] at h
        have hval := hok out h
        rw [cigarScore_cons] at hval
        omega
    | bad => exact absurd hn hbad

/-- **C10.** For every topologically sorted graph (every preceding dependency
offset of a slab column is strictly smaller than that column, which
`slabColRef` inherits from the graph's in-neighbor order), every read and
every starting state, the Phase 4 traceback walk terminates: each iteration
either jumps to a strictly smaller column (match or deletion step) or moves
to a strictly smaller row (match or insertion step), so fuel exceeding
`(row + 1) + col` is never exhausted; the loop also exits on a non-positive
current cell or when a match step starts the alignment at its own column. -/
theorem C10_traceback_terminates (sc : Scores) (g : Graph) (read : List Char)
    (hg : g.topIn) (j0 w fuel c : Nat) (row : Int) (acc : List Char)
    (hc : c < w) (hrow : row < (read.length : Int))
    (hfuel : (row + 1).toNat + c < fuel) :
    tbWalk sc (slabColRef g j0 w) read fuel c row acc ≠ TBOut.fuel := by
  have hP := slabColRef_depsLt g j0 w hg
  have hc2 : c < (slabColRef g j0 w).width := by
    rw [slabColRef_width]
    exact hc
  exact tbWalk_no_fuel sc (slabColRef g j0 w) read hP fuel c row acc hc2 hrow hfuel

/-- Witness for C10 on the two-vertex chain graph with read "AC". -/
theorem C10_traceback_terminates_witness :
    gChain2.topIn ∧ 1 < 2 ∧ (1 : Int) < ((['A', 'C'] : List Char).length : Int) ∧
      ((1 : Int) + 1).toNat + 1 < 4 ∧
      tbWalk scoreUnit (slabColRef gChain2 0 2) ['A', 'C'] 4 1 1 [] ≠ TBOut.fuel :=
  ⟨by decide, by decide, by decide, by decide,
    C10_traceback_terminates scoreUnit gChain2 ['A', 'C'] (by decide) 0 2 4 1 1 []
      (by decide) (by decide) (by decide)⟩

/-- **C5.** For every topologically sorted graph and non-empty read (with a
positive deletion penalty), the Phase 4 walk started at the best endpoint of
the Phase 3 slab completes normally (neither running out of its measure-sized
fuel nor failing the insertion assert), and replaying the compacted cigar it
emits yields exactly the reported best score, so the validation assertion
after cigar compaction holds. -/
theorem C5_cigar_replay (sc : Scores) (g : Graph) (read : List Char)
    (hg : g.topIn) (hdel : 1 ≤ sc.delS) (hlen : 1 ≤ read.length)
    (hV : 1 ≤ g.numVertices) :
    ∃ cigarRev,
      tbWalk sc
        (slabColRef g
          (phase2Leftmost sc g read (alignToDAGLocal_Phase1_Score sc g read))
          ((alignToDAGLocal_Phase1_Score sc g read).refColumn + 1 -
            phase2Leftmost sc g read (alignToDAGLocal_Phase1_Score sc g read)))
        read
        ((alignToDAGLocal_Phase1_Score sc g read).qryRow + 2 +
          ((alignToDAGLocal_Phase1_Score sc g read).refColumn -
            phase2Leftmost sc g read (alignToDAGLocal_Phase1_Score sc g read)))
        ((alignToDAGLocal_Phase1_Score sc g read).refColumn -
          phase2Leftmost sc g read (alignToDAGLocal_Phase1_Score sc g read))
        ((alignToDAGLocal_Phase1_Score sc g read).qryRow : Int) [] =
        TBOut.ok cigarRev ∧
      cigarRunScore sc (cigarCompact cigarRev.reverse) =
        (alignToDAGLocal_Phase1_Score sc g read).score := by
  obtain ⟨hrow, hcol, hvid, hcellB, hbound, hBnn⟩ := phase1_best_props sc g read hlen hV
  obtain ⟨_, htarget⟩ := phase3_core sc g read hg hdel _ hrow hcol hvid hcellB hbound hBnn
  set b := alignToDAGLocal_Phase1_Score sc g read with hb
  set j0 := phase2Leftmost sc g read b with hj0def
  set w := b.refColumn + 1 - j0 with hwdef
  set S := slabColRef g j0 w with hSdef
  have hj0le : j0 ≤ b.refColumn := by
    have h1 : j0 ≤ b.vid := leftMost_le_self g _ _
    rw [hvid] at h1
    exact h1
  have hP : S.depsLt := by
    rw [hSdef]
    exact slabColRef_depsLt g j0 w hg
  have hcw : b.refColumn - j0 < S.width := by
    rw [hSdef, slabColRef_width]
    omega
  have hrowI : ((b.qryRow : Int)) < (read.length : Int) := by exact_mod_cast hrow
  have hfinal := phase3FinalRow_eq sc g read b hrow
  have hcell0 : cellFn sc S read (b.qryRow : Int) (b.refColumn - j0) = b.score := by
    rw [cellFn, if_pos (by omega : (0 : Int) ≤ (b.qryRow : Int))]
    have ht : ((b.qryRow : Int)).toNat = b.qryRow := by omega
    rw [ht]
    rw [hfinal] at htarget
    exact htarget
  obtain ⟨hfail, hok⟩ := tbWalk_score sc S read hP
    (b.qryRow + 2 + (b.refColumn - j0)) (b.refColumn - j0) (b.qryRow : Int) []
    hcw hrowI
  have hnf := tbWalk_no_fuel sc S read hP
    (b.qryRow + 2 + (b.refColumn - j0)) (b.refColumn - j0) (b.qryRow : Int) []
    hcw hrowI (by omega)
  cases hres : tbWalk sc S read (b.qryRow + 2 + (b.refColumn - j0))
      (b.refColumn - j0) (b.qryRow : Int) [] with
  | ok out =>
    refine ⟨out, rfl, ?_⟩
    rw [cigarRunScore_compact, cigarScore_reverse]
    have hs := hok out hres
    rw [hs, hcell0]
    show cigarScore sc [] + b.score = b.score
    simp [cigarScore]
  | fail => exact absurd hres hfail
  | fuel => exact absurd hres hnf

/-- Witness for C5 on the two-vertex chain graph with read "AC". -/
theorem C5_cigar_replay_witness :
    gChain2.topIn ∧ 1 ≤ scoreUnit.delS ∧ 1 ≤ (['A', 'C'] : List Char).length ∧
      1 ≤ gChain2.numVertices ∧
      (∃ cigarRev,
        tbWalk scoreUnit
          (slabColRef gChain2
            (phase2Leftmost scoreUnit gChain2 ['A', 'C']
              (alignToDAGLocal_Phase1_Score scoreUnit gChain2 ['A', 'C']))
            ((alignToDAGLocal_Phase1_Score scoreUnit gChain2 ['A', 'C']).refColumn + 1 -
              phase2Leftmost scoreUnit gChain2 ['A', 'C']
                (alignToDAGLocal_Phase1_Score scoreUnit gChain2 ['A', 'C'])))
          ['A', 'C']
          ((alignToDAGLocal_Phase1_Score scoreUnit gChain2 ['A', 'C']).qryRow + 2 +
            ((alignToDAGLocal_Phase1_Score scoreUnit gChain2 ['A', 'C']).refColumn -
              phase2Leftmost scoreUnit gChain2 ['A', 'C']
                (alignToDAGLocal_Phase1_Score scoreUnit gChain2 ['A', 'C'])))
          ((alignToDAGLocal_Phase1_Score scoreUnit gChain2 ['A', 'C']).refColumn -
            phase2Leftmost scoreUnit gChain2 ['A', 'C']
              (alignToDAGLocal_Phase1_Score scoreUnit gChain2 ['A', 'C']))
          ((alignToDAGLocal_Phase1_Score scoreUnit gChain2 ['A', 'C']).qryRow : Int) [] =
          TBOut.ok cigarRev ∧
        cigarRunScore scoreUnit (cigarCompact cigarRev.reverse) =
          (alignToDAGLocal_Phase1_Score scoreUnit gChain2 ['A', 'C']).score) :=
  ⟨by decide, by decide, by decide, by decide,
    C5_cigar_replay scoreUnit gChain2 ['A', 'C'] (by decide) (by decide)
      (by decide) (by decide)⟩

end PaSGAL
